import Mathlib

/-!
# FixedSizeMemoryPool

A shallow embedding of the fixed-size memory pool of `FixedMemPool.h` /
`FixedMemPoolImpl.h`, and theorems about it.

Modelling conventions.

* Pointers are addresses (`Nat`); `0` is `nullptr`.
* `uint64_t` values are `Nat` reduced modulo `2^64` where the code increments
  them; `int` values are `Int`, and the implicit `uint64_t -> int` and
  `ptrdiff_t -> int` narrowings are two's complement wrap-arounds to 32 bits.
* The storage obtained from `::operator new` is raw: the `next_free_index_`
  field of a control block is `none` until the code writes it.  Reading a
  field that was never written, and dereferencing a null `free_head_`, have no
  defined result in C++; the embedding reports them as faults of their own.
* `data_` is the first member of `MemoryCb`, so `&cb->data_` and `cb` are the
  same address (this is what `Deallocate` relies on for its cast).
* The `next_free_index_` fields of control blocks at different addresses are
  independent cells.  This is exact for the slot addresses
  `m_pool_ + i * sizeof(MemoryCb)`, the only ones the pool hands out.
* The managed type `T` is outside the pool.  Its constructor either returns or
  throws (a flag of `Allocate`); its destructor returns.
-/

namespace FixedMemPool

/-- Compile-time constants of one instantiation `FixedSizeMemoryPool<T>`. -/
structure Config where
  /-- The global `const int g_MaxNumberOfObjectsInPool` (1000 in the source). -/
  g_MaxNumberOfObjectsInPool : Nat
  /-- The value of `sizeof(MemoryCb)`. -/
  sizeofMemoryCb : Nat

/-- The configuration of the source as shipped, for control blocks of `sz` bytes. -/
def shipped (sz : Nat) : Config := ⟨1000, sz⟩

/-- The ways a call can stop without returning. -/
inductive Fault
  /-- The check `assert(free_count_ != 0)` of `Allocate`. -/
  | capacityExhausted
  /-- The check `assert(m_pool_ != nullptr)` of `Allocate`. -/
  | poolIsNull
  /-- The check `assert (index >= 0)` of `ToAddr`. -/
  | negativeIndex
  /-- The check `assert (ptr != nullptr)` of `ToIndex`. -/
  | indexOfNull
  /-- The check `assert (cb_addr >= start_addr && cb_addr <= end_addr)` of `ValidateMemory`. -/
  | invalidAddress
  /-- The `assert(false)` in the `catch` around the placement construction. -/
  | constructorFailed
  /-- A member access through a null pointer (no defined result). -/
  | nullDereference
  /-- A read of a `next_free_index_` that was never written (no defined result). -/
  | indeterminateRead
  deriving DecidableEq, Repr

/-- The data members of `FixedSizeMemoryPool<T>` together with the link fields
of the storage they point to. -/
structure Pool where
  /-- The base address of the array of control blocks. -/
  m_pool_ : Nat
  /-- The head of the free control blocks (`0` for `nullptr`). -/
  free_head_ : Nat
  /-- The number of free memory blocks. -/
  free_count_ : Nat
  /-- The index of the next never used control block. -/
  fresh_index_ : Nat
  /-- The field `next_free_index_` of the control block at an address;
  `none` while nothing was written there. -/
  next_free_index_ : Nat → Option Nat

/-- Two's complement narrowing of an integer to a 32-bit `int`. -/
def wrapInt32 (z : Int) : Int :=
  let low := (z % 4294967296).toNat
  if low < 2147483648 then (low : Int) else (low : Int) - 4294967296

/-- The implicit conversion of a `uint64_t` argument to the `int` parameter of `ToAddr`. -/
def toInt (v : Nat) : Int := wrapInt32 (v : Int)

/-- The implicit conversion of an `int` to the `uint64_t` field it is stored in. -/
def toUInt64 (z : Int) : Nat := (z % 18446744073709551616).toNat

/-- The address of slot `i`: `&m_pool_[i]`. -/
def slotAddr (cfg : Config) (m_pool : Nat) (i : Nat) : Nat :=
  m_pool + i * cfg.sizeofMemoryCb

/-- The constructor: the storage block at address `block` is what
`::operator new` returned; no link field is written. -/
def FixedSizeMemoryPool (cfg : Config) (block : Nat) : Pool :=
  { m_pool_ := block
    free_head_ := block
    free_count_ := cfg.g_MaxNumberOfObjectsInPool
    fresh_index_ := 0
    next_free_index_ := fun _ => none }

/-- The method `ToAddr(int index)`. -/
def ToAddr (cfg : Config) (s : Pool) (index : Int) : Except Fault Nat :=
  if index < 0 then .error .negativeIndex
  else if index ≥ (cfg.g_MaxNumberOfObjectsInPool : Int) then .ok 0
  else .ok (slotAddr cfg s.m_pool_ index.toNat)

/-- The method `ToIndex(MemoryCb* ptr)`: the pointer difference `ptr - m_pool_`,
narrowed to `int`. -/
def ToIndex (cfg : Config) (s : Pool) (ptr : Nat) : Except Fault Int :=
  if ptr = 0 then .error .indexOfNull
  else .ok (wrapInt32 (Int.tdiv ((ptr : Int) - (s.m_pool_ : Int)) (cfg.sizeofMemoryCb : Int)))

/-- The method `ValidateMemory(MemoryCb* cb)`. -/
def ValidateMemory (cfg : Config) (s : Pool) (cb : Nat) : Except Fault Unit :=
  let cb_addr := cb
  let start_addr := slotAddr cfg s.m_pool_ 0
  let end_addr := slotAddr cfg s.m_pool_ (cfg.g_MaxNumberOfObjectsInPool - 1)
  if cb_addr ≥ start_addr ∧ cb_addr ≤ end_addr then .ok () else .error .invalidAddress

/-- The first block of `Allocate` (source lines 56-59): when a never used
control block is left, write its link and advance `fresh_index_`. -/
def materialize (cfg : Config) (s : Pool) : Except Fault Pool :=
  if s.fresh_index_ < cfg.g_MaxNumberOfObjectsInPool then
    match ToAddr cfg s (toInt s.fresh_index_) with
    | .error e => .error e
    | .ok cb =>
      if cb = 0 then .error .nullDereference
      else
        let fresh := (s.fresh_index_ + 1) % 18446744073709551616
        .ok { s with
              fresh_index_ := fresh
              next_free_index_ := Function.update s.next_free_index_ cb (some fresh) }
  else .ok s

/-- The method `Allocate(Args ...args)`.  `ctorThrows` says whether the
constructor of `T` throws on these arguments.  The result is the returned
pointer `mem` and the pool afterwards. -/
def Allocate (cfg : Config) (s : Pool) (ctorThrows : Bool) : Except Fault (Nat × Pool) :=
  if s.free_count_ = 0 then .error .capacityExhausted
  else if s.m_pool_ = 0 then .error .poolIsNull
  else
    match materialize cfg s with
    | .error e => .error e
    | .ok s1 =>
      if s1.free_head_ = 0 then .error .nullDereference
      else
        let mem := s1.free_head_
        match s1.next_free_index_ s1.free_head_ with
        | none => .error .indeterminateRead
        | some next =>
          match ToAddr cfg s1 (toInt next) with
          | .error e => .error e
          | .ok head =>
            if ctorThrows then .error .constructorFailed
            else .ok (mem, { s1 with free_head_ := head, free_count_ := s1.free_count_ - 1 })

/-- The method `Deallocate(T* ptr)`. -/
def Deallocate (cfg : Config) (s : Pool) (ptr : Nat) : Except Fault Pool :=
  if ptr = 0 then .ok s
  else
    let cb := ptr
    match ValidateMemory cfg s cb with
    | .error e => .error e
    | .ok _ =>
      let count := (s.free_count_ + 1) % 18446744073709551616
      if s.free_head_ ≠ 0 then
        match ToIndex cfg s s.free_head_ with
        | .error e => .error e
        | .ok index =>
          .ok { s with
                free_count_ := count
                next_free_index_ := Function.update s.next_free_index_ cb (some (toUInt64 index))
                free_head_ := cb }
      else
        .ok { s with
              free_count_ := count
              free_head_ := cb
              next_free_index_ :=
                Function.update s.next_free_index_ cb (some cfg.g_MaxNumberOfObjectsInPool) }

/-- The method `Capacity()`. -/
def Capacity (cfg : Config) (_s : Pool) : Nat := cfg.g_MaxNumberOfObjectsInPool

/-- The method `FreeSize()`. -/
def FreeSize (s : Pool) : Nat := s.free_count_

/-- The method `GetAddressList()`: the set of the addresses `&m_pool_[i].data_`. -/
def GetAddressList (cfg : Config) (s : Pool) : Finset Nat :=
  (Finset.range cfg.g_MaxNumberOfObjectsInPool).image (slotAddr cfg s.m_pool_)

/-- One call of a client on the pool. -/
inductive Call
  /-- A call of `Allocate`; the flag says whether the constructor of `T` throws. -/
  | allocate (ctorThrows : Bool)
  /-- A call of `Deallocate` with this pointer. -/
  | deallocate (ptr : Nat)
  deriving DecidableEq, Repr

/-- A pool together with the bookkeeping of a client that observes its calls. -/
structure Run where
  /-- The pool itself. -/
  pool : Pool
  /-- The addresses returned by `Allocate` and not given back since, latest first. -/
  live : List Nat
  /-- Every address returned by `Allocate` so far, latest first. -/
  returned : List Nat

/-- The client's view of a freshly constructed pool. -/
def Run.start (cfg : Config) (block : Nat) : Run :=
  { pool := FixedSizeMemoryPool cfg block, live := [], returned := [] }

/-- The client's record after `Allocate` returned `mem`. -/
def Run.allocated (r : Run) (mem : Nat) (s : Pool) : Run :=
  { pool := s, live := mem :: r.live, returned := mem :: r.returned }

/-- The client's record after `Deallocate` of a non-null `ptr` returned. -/
def Run.deallocated (r : Run) (ptr : Nat) (s : Pool) : Run :=
  { pool := s, live := r.live.erase ptr, returned := r.returned }

/-- The calls of `Allocate` in a sequence. -/
def allocations (tr : List Call) : Nat :=
  tr.countP fun c => match c with
    | .allocate _ => true
    | .deallocate _ => false

/-- The calls of `Deallocate` with a non-null argument in a sequence. -/
def releases (tr : List Call) : Nat :=
  tr.countP fun c => match c with
    | .allocate _ => false
    | .deallocate ptr => decide (ptr ≠ 0)

/-- One call, with the client's bookkeeping. -/
def step (cfg : Config) (r : Run) : Call → Except Fault Run
  | .allocate ctorThrows =>
    match Allocate cfg r.pool ctorThrows with
    | .error e => .error e
    | .ok (mem, s) => .ok (r.allocated mem s)
  | .deallocate ptr =>
    match Deallocate cfg r.pool ptr with
    | .error e => .error e
    | .ok s => if ptr = 0 then .ok { r with pool := s } else .ok (r.deallocated ptr s)

/-- A sequence of calls, stopping at the first fault. -/
def exec (cfg : Config) : Run → List Call → Except Fault Run
  | r, [] => .ok r
  | r, c :: cs =>
    match step cfg r c with
    | .error e => .error e
    | .ok r1 => exec cfg r1 cs

/-- The caller's side of the contract for one call: `Allocate` only while a
block is free and with a constructor that returns, `Deallocate` only with null
or with an address that is live. -/
def Call.admissible (r : Run) : Call → Bool
  | .allocate ctorThrows => decide (r.pool.free_count_ ≠ 0) && !ctorThrows
  | .deallocate ptr => decide (ptr = 0) || decide (ptr ∈ r.live)

/-- A sequence of calls respects the contract when every call is admissible in
the state it is made in.  Calls after a fault are never made. -/
def respects (cfg : Config) : Run → List Call → Bool
  | _, [] => true
  | r, c :: cs =>
    c.admissible r &&
      match step cfg r c with
      | .error _ => true
      | .ok r1 => respects cfg r1 cs

/-- The control block that the link of the block at `a` leads to, when the
link can be followed. -/
def successor (cfg : Config) (s : Pool) (a : Nat) : Option Nat :=
  if a = 0 then none
  else
    match s.next_free_index_ a with
    | none => none
    | some next =>
      match ToAddr cfg s (toInt next) with
      | .error _ => none
      | .ok b => some b

/-- The control block reached from `a` by following `n` links. -/
def follow (cfg : Config) (s : Pool) : Nat → Nat → Option Nat
  | 0, a => some a
  | n + 1, a =>
    match successor cfg s a with
    | none => none
    | some b => follow cfg s n b

/-- The constants a pool can be built with: a positive capacity that fits the
`int` it is declared as, and control blocks of positive size. -/
structure Config.WF (cfg : Config) : Prop where
  /-- The capacity is positive. -/
  cap_pos : 0 < cfg.g_MaxNumberOfObjectsInPool
  /-- The capacity is a value of a 32-bit `int`. -/
  cap_int : cfg.g_MaxNumberOfObjectsInPool < 2147483648
  /-- A control block has a positive size. -/
  size_pos : 0 < cfg.sizeofMemoryCb

/-- The pointer `ToAddr` yields for a non-negative index: the slot, or
`nullptr` from the capacity on. -/
def slotPtr (cfg : Config) (m_pool : Nat) (i : Nat) : Nat :=
  if i < cfg.g_MaxNumberOfObjectsInPool then slotAddr cfg m_pool i else 0

/-- The slots of the list are linked one to the next, the last one to `t`. -/
def LinksTo (cfg : Config) (m_pool : Nat) (links : Nat → Option Nat) (t : Nat) : List Nat → Prop
  | [] => True
  | i :: rest => links (slotAddr cfg m_pool i) = some (rest.headD t) ∧ LinksTo cfg m_pool links t rest

/-- The shape of a pool under contract-respecting use.  `fl` lists the indices
of the free slots in the order of the free list, `live` the live addresses. -/
structure Inv (cfg : Config) (block : Nat) (s : Pool) (live : List Nat) (fl : List Nat) : Prop where
  /-- The storage never moves. -/
  base : s.m_pool_ = block
  /-- The never used blocks start at most at the capacity. -/
  fresh_le : s.fresh_index_ ≤ cfg.g_MaxNumberOfObjectsInPool
  /-- No slot is twice on the free list. -/
  fl_nodup : fl.Nodup
  /-- The free list holds used slots only. -/
  fl_lt : ∀ i ∈ fl, i < s.fresh_index_
  /-- No address is live twice. -/
  live_nodup : live.Nodup
  /-- A live address is a used slot that is not on the free list. -/
  live_slot : ∀ p ∈ live, ∃ i, i < s.fresh_index_ ∧ p = slotAddr cfg block i ∧ i ∉ fl
  /-- A used slot is live or on the free list. -/
  covered : ∀ i, i < s.fresh_index_ → slotAddr cfg block i ∈ live ∨ i ∈ fl
  /-- The head is the first free slot, or the first never used one. -/
  head : s.free_head_ = slotPtr cfg block (fl.headD s.fresh_index_)
  /-- The free list is linked, and ends at the first never used slot. -/
  links : LinksTo cfg block s.next_free_index_ s.fresh_index_ fl
  /-- The free blocks are the free list and the never used ones. -/
  count : s.free_count_ = fl.length + (cfg.g_MaxNumberOfObjectsInPool - s.fresh_index_)
  /-- The used slots are the live ones and the free list. -/
  total : live.length + fl.length = s.fresh_index_

/-- The shape of a run under contract-respecting use: the pool has its shape
for the live addresses, and whatever was returned is a used slot. -/
structure RunInv (cfg : Config) (block : Nat) (r : Run) (fl : List Nat) : Prop where
  /-- The pool has its shape. -/
  inv : Inv cfg block r.pool r.live fl
  /-- Every returned address is a used slot. -/
  returned_slot : ∀ p ∈ r.returned, ∃ i, i < r.pool.fresh_index_ ∧ p = slotAddr cfg block i

/-- A small pool for worked examples: three control blocks of 16 bytes. -/
def demo : Config := ⟨3, 16⟩

/-- The control blocks visited from `a` by following the links through the
slots below `fresh_index_`, at most `n` of them: the walk stops at `nullptr`
and at the first address that is not below `&m_pool_[fresh_index_]`. -/
def freeChain (cfg : Config) (s : Pool) : Nat → Nat → List Nat
  | 0, _ => []
  | n + 1, a =>
    if a = 0 ∨ slotAddr cfg s.m_pool_ s.fresh_index_ ≤ a then []
    else
      a :: match successor cfg s a with
        | none => []
        | some b => freeChain cfg s n b

/-- The slots whose link field was written are those below `fresh_index_`. -/
def Touched (cfg : Config) (s : Pool) : Prop :=
  ∀ i, (i < s.fresh_index_ → s.next_free_index_ (slotAddr cfg s.m_pool_ i) ≠ none) ∧
    (s.fresh_index_ ≤ i → s.next_free_index_ (slotAddr cfg s.m_pool_ i) = none)

/-! ## Arithmetic of indices and addresses -/

theorem wrapInt32_of_lt (z : Int) (h0 : 0 ≤ z) (h1 : z < 2147483648) : wrapInt32 z = z := by
  unfold wrapInt32
  have h : z % 4294967296 = z := Int.emod_eq_of_lt h0 (by omega)
  have h2 : z.toNat < 2147483648 := by omega
  simp only [h, h2, if_true]
  omega

theorem toInt_of_lt (v : Nat) (h : v < 2147483648) : toInt v = (v : Int) := by
  unfold toInt
  exact wrapInt32_of_lt _ (by omega) (by omega)

theorem toUInt64_of_lt (v : Nat) (h : v < 2147483648) : toUInt64 (v : Int) = v := by
  unfold toUInt64
  have h2 : (v : Int) % 18446744073709551616 = v := Int.emod_eq_of_lt (by omega) (by omega)
  rw [h2]
  simp

theorem slotAddr_inj (cfg : Config) (hw : cfg.WF) (b i j : Nat)
    (h : slotAddr cfg b i = slotAddr cfg b j) : i = j := by
  unfold slotAddr at h
  exact Nat.eq_of_mul_eq_mul_right hw.size_pos (by omega)

theorem slotAddr_ne_zero (cfg : Config) (b i : Nat) (hb : b ≠ 0) : slotAddr cfg b i ≠ 0 := by
  unfold slotAddr
  omega

theorem slotPtr_of_lt (cfg : Config) (b i : Nat) (h : i < cfg.g_MaxNumberOfObjectsInPool) :
    slotPtr cfg b i = slotAddr cfg b i := by
  simp [slotPtr, h]

theorem ToAddr_toInt (cfg : Config) (hw : cfg.WF) (s : Pool) (i : Nat)
    (h : i ≤ cfg.g_MaxNumberOfObjectsInPool) :
    ToAddr cfg s (toInt i) = .ok (slotPtr cfg s.m_pool_ i) := by
  have hc := hw.cap_int
  rw [toInt_of_lt i (by omega)]
  unfold ToAddr slotPtr
  by_cases hi : i < cfg.g_MaxNumberOfObjectsInPool
  · have h1 : ¬ ((i : Int) < 0) := by omega
    have h2 : ¬ ((i : Int) ≥ (cfg.g_MaxNumberOfObjectsInPool : Int)) := by omega
    simp [h1, h2, hi]
  · have h1 : ¬ ((i : Int) < 0) := by omega
    have h2 : (i : Int) ≥ (cfg.g_MaxNumberOfObjectsInPool : Int) := by omega
    simp [h1, h2, hi]

theorem ToIndex_slotAddr (cfg : Config) (hw : cfg.WF) (s : Pool) (i : Nat)
    (hb : s.m_pool_ ≠ 0) (h : i < cfg.g_MaxNumberOfObjectsInPool) :
    ToIndex cfg s (slotAddr cfg s.m_pool_ i) = .ok (i : Int) := by
  have hc := hw.cap_int
  have hs := hw.size_pos
  unfold ToIndex
  rw [if_neg (slotAddr_ne_zero cfg _ i hb)]
  have hd : ((slotAddr cfg s.m_pool_ i : Nat) : Int) - (s.m_pool_ : Int)
      = (i : Int) * (cfg.sizeofMemoryCb : Int) := by
    unfold slotAddr
    push_cast
    ring
  rw [hd, Int.mul_tdiv_cancel _ (by omega), wrapInt32_of_lt _ (by omega) (by omega)]

theorem slotAddr_le_last (cfg : Config) (b i : Nat) (h : i < cfg.g_MaxNumberOfObjectsInPool) :
    slotAddr cfg b i ≤ slotAddr cfg b (cfg.g_MaxNumberOfObjectsInPool - 1) := by
  unfold slotAddr
  have : i * cfg.sizeofMemoryCb ≤ (cfg.g_MaxNumberOfObjectsInPool - 1) * cfg.sizeofMemoryCb :=
    Nat.mul_le_mul_right _ (by omega)
  omega

theorem ValidateMemory_slotAddr (cfg : Config) (s : Pool) (i : Nat)
    (h : i < cfg.g_MaxNumberOfObjectsInPool) :
    ValidateMemory cfg s (slotAddr cfg s.m_pool_ i) = .ok () := by
  have h1 := slotAddr_le_last cfg s.m_pool_ i h
  have h0 : slotAddr cfg s.m_pool_ 0 ≤ slotAddr cfg s.m_pool_ i := by
    unfold slotAddr
    omega
  simp [ValidateMemory, h0, h1]

/-! ## The free list under updates of the link fields -/

theorem LinksTo_update (cfg : Config) (hw : cfg.WF) (b : Nat) (links : Nat → Option Nat)
    (t j : Nat) (v : Option Nat) (fl : List Nat) (hj : j ∉ fl)
    (h : LinksTo cfg b links t fl) :
    LinksTo cfg b (Function.update links (slotAddr cfg b j) v) t fl := by
  induction fl with
  | nil => trivial
  | cons i rest ih =>
    have hij : i ≠ j := fun e => hj (by simp [e])
    have hne : slotAddr cfg b i ≠ slotAddr cfg b j := fun e => hij (slotAddr_inj cfg hw b i j e)
    refine ⟨?_, ih (fun m => hj (List.mem_cons_of_mem _ m)) h.2⟩
    rw [Function.update_noteq hne]
    exact h.1

theorem LinksTo_snoc (cfg : Config) (b : Nat) (links : Nat → Option Nat) (t u : Nat)
    (fl : List Nat) (h : LinksTo cfg b links t fl)
    (ht : links (slotAddr cfg b t) = some u) :
    LinksTo cfg b links u (fl ++ [t]) := by
  induction fl with
  | nil => exact ⟨ht, trivial⟩
  | cons i rest ih =>
    refine ⟨?_, ih h.2⟩
    rw [h.1]
    cases rest <;> rfl

theorem Inv.headD_le {cfg : Config} {block : Nat} {s : Pool} {live fl : List Nat}
    (h : Inv cfg block s live fl) :
    fl.headD s.fresh_index_ ≤ cfg.g_MaxNumberOfObjectsInPool := by
  have hf := h.fresh_le
  cases fl with
  | nil => exact hf
  | cons i rest =>
    have := h.fl_lt i (by simp)
    simp only [List.headD_cons]
    omega

theorem Inv.count_le {cfg : Config} {block : Nat} {s : Pool} {live fl : List Nat}
    (h : Inv cfg block s live fl) :
    s.free_count_ + live.length = cfg.g_MaxNumberOfObjectsInPool := by
  have h1 := h.count
  have h2 := h.total
  have h3 := h.fresh_le
  omega

/-! ## The two operations preserve the shape -/

theorem Deallocate_slot (cfg : Config) (hw : cfg.WF) (block : Nat) (hb : block ≠ 0)
    (s : Pool) (live fl : List Nat) (h : Inv cfg block s live fl) (i : Nat)
    (hi : i < cfg.g_MaxNumberOfObjectsInPool) :
    Deallocate cfg s (slotAddr cfg block i) =
      .ok { m_pool_ := s.m_pool_
            free_head_ := slotAddr cfg block i
            free_count_ := s.free_count_ + 1
            fresh_index_ := s.fresh_index_
            next_free_index_ := Function.update s.next_free_index_ (slotAddr cfg block i)
              (some (fl.headD s.fresh_index_)) } := by
  have hc := hw.cap_int
  have hcnt := h.count_le
  have hle := h.headD_le
  have hm := h.base
  have hb2 : s.m_pool_ ≠ 0 := by rw [hm]; exact hb
  have hv : ValidateMemory cfg s (slotAddr cfg block i) = .ok () := by
    rw [← hm]; exact ValidateMemory_slotAddr cfg s i hi
  have hmod : (s.free_count_ + 1) % 18446744073709551616 = s.free_count_ + 1 :=
    Nat.mod_eq_of_lt (by omega)
  have hhd := h.head
  generalize fl.headD s.fresh_index_ = H at hle hhd ⊢
  unfold Deallocate
  rw [if_neg (slotAddr_ne_zero cfg block i hb)]
  simp only [hv, hmod]
  by_cases hz : s.free_head_ = 0
  · have hh : H = cfg.g_MaxNumberOfObjectsInPool := by
      rw [hz] at hhd
      by_cases hlt : H < cfg.g_MaxNumberOfObjectsInPool
      · rw [slotPtr_of_lt cfg block _ hlt] at hhd
        exact absurd hhd.symm (slotAddr_ne_zero cfg block _ hb)
      · omega
    simp [hz, hh]
  · have hlt : H < cfg.g_MaxNumberOfObjectsInPool := by
      by_contra hge
      apply hz
      rw [hhd]
      simp [slotPtr, hge]
    have hhead : s.free_head_ = slotAddr cfg s.m_pool_ H := by
      rw [hhd, slotPtr_of_lt cfg block _ hlt, hm]
    have hidx := ToIndex_slotAddr cfg hw s H hb2 hlt
    rw [← hhead] at hidx
    simp [hz, hidx, toUInt64_of_lt _ (show H < 2147483648 by omega)]

theorem Deallocate_inv (cfg : Config) (hw : cfg.WF) (block : Nat) (hb : block ≠ 0)
    (s : Pool) (live fl : List Nat) (h : Inv cfg block s live fl) (p : Nat) (hp : p ∈ live) :
    ∃ i s1, p = slotAddr cfg block i ∧ i < s.fresh_index_ ∧ i ∉ fl ∧
      Deallocate cfg s p = .ok s1 ∧ Inv cfg block s1 (live.erase p) (i :: fl) ∧
      s1.free_head_ = p ∧ s1.free_count_ = s.free_count_ + 1 ∧
      s1.fresh_index_ = s.fresh_index_ := by
  obtain ⟨i, hif, hpi, hifl⟩ := h.live_slot p hp
  have hf := h.fresh_le
  have hic : i < cfg.g_MaxNumberOfObjectsInPool := by omega
  refine ⟨i, { m_pool_ := s.m_pool_, free_head_ := slotAddr cfg block i,
                free_count_ := s.free_count_ + 1, fresh_index_ := s.fresh_index_,
                next_free_index_ := Function.update s.next_free_index_ (slotAddr cfg block i)
                  (some (fl.headD s.fresh_index_)) },
    hpi, hif, hifl, ?_, ?_, ?_, rfl, rfl⟩
  · rw [hpi]
    exact Deallocate_slot cfg hw block hb s live fl h i hic
  · constructor
    · exact h.base
    · exact h.fresh_le
    · exact List.nodup_cons.2 ⟨hifl, h.fl_nodup⟩
    · intro j hj
      rcases List.mem_cons.1 hj with e | e
      · rw [e]; exact hif
      · exact h.fl_lt j e
    · exact h.live_nodup.erase p
    · intro q hq
      have hq2 := (h.live_nodup.mem_erase_iff).1 hq
      obtain ⟨j, hjf, hqj, hjfl⟩ := h.live_slot q hq2.2
      refine ⟨j, hjf, hqj, ?_⟩
      intro hmem
      rcases List.mem_cons.1 hmem with e | e
      · exact hq2.1 (by rw [hqj, hpi, e])
      · exact hjfl e
    · intro j hj
      by_cases e : j = i
      · right; rw [e]; exact List.mem_cons_self _ _
      · rcases h.covered j hj with hl | hl
        · left
          refine (h.live_nodup.mem_erase_iff).2 ⟨?_, hl⟩
          intro e2
          exact e (slotAddr_inj cfg hw block j i (by rw [e2, hpi]))
        · right; exact List.mem_cons_of_mem _ hl
    · show slotAddr cfg block i = slotPtr cfg block i
      rw [slotPtr_of_lt cfg block i hic]
    · refine ⟨?_, LinksTo_update cfg hw block _ _ i _ fl hifl h.links⟩
      show Function.update s.next_free_index_ (slotAddr cfg block i) _ (slotAddr cfg block i) = _
      rw [Function.update_same]
    · show s.free_count_ + 1 = (i :: fl).length + _
      have := h.count
      simp only [List.length_cons]
      omega
    · have h1 := List.length_erase_of_mem hp
      have h2 := List.length_pos_of_mem hp
      have h3 := h.total
      simp only [List.length_cons]
      omega
  · exact hpi.symm

theorem headD_snoc (fl : List Nat) (t u : Nat) : (fl ++ [t]).headD u = fl.headD t := by
  cases fl <;> rfl

theorem materialize_inv (cfg : Config) (hw : cfg.WF) (block : Nat) (hb : block ≠ 0)
    (s : Pool) (live fl : List Nat) (h : Inv cfg block s live fl) (hfc : s.free_count_ ≠ 0) :
    ∃ s1 fl1, materialize cfg s = .ok s1 ∧ Inv cfg block s1 live fl1 ∧ fl1 ≠ [] ∧
      s1.free_head_ = s.free_head_ ∧ s1.free_count_ = s.free_count_ ∧
      fl1.headD s1.fresh_index_ = fl.headD s.fresh_index_ ∧
      s.fresh_index_ ≤ s1.fresh_index_ := by
  have hc := hw.cap_int
  by_cases hlt : s.fresh_index_ < cfg.g_MaxNumberOfObjectsInPool
  · have hnot : s.fresh_index_ ∉ fl := fun m => Nat.lt_irrefl _ (h.fl_lt _ m)
    have hmod : (s.fresh_index_ + 1) % 18446744073709551616 = s.fresh_index_ + 1 :=
      Nat.mod_eq_of_lt (by omega)
    have hto : ToAddr cfg s (toInt s.fresh_index_) = .ok (slotAddr cfg block s.fresh_index_) := by
      rw [ToAddr_toInt cfg hw s _ (by omega), slotPtr_of_lt cfg _ _ hlt, h.base]
    refine ⟨{ s with fresh_index_ := s.fresh_index_ + 1
                     next_free_index_ := Function.update s.next_free_index_
                       (slotAddr cfg block s.fresh_index_) (some (s.fresh_index_ + 1)) },
            fl ++ [s.fresh_index_], ?_, ?_, by simp, rfl, rfl, headD_snoc _ _ _,
            Nat.le_succ _⟩
    · unfold materialize
      rw [if_pos hlt, hto]
      simp only [hmod]
      rw [if_neg (slotAddr_ne_zero cfg block _ hb)]
    · constructor
      · exact h.base
      · show s.fresh_index_ + 1 ≤ _
        omega
      · refine List.Nodup.append h.fl_nodup (List.nodup_singleton _) ?_
        intro j hj1 hj2
        rw [List.mem_singleton] at hj2
        exact hnot (hj2 ▸ hj1)
      · intro j hj
        show j < s.fresh_index_ + 1
        rcases List.mem_append.1 hj with e | e
        · have := h.fl_lt j e; omega
        · rw [List.mem_singleton] at e; omega
      · exact h.live_nodup
      · intro q hq
        obtain ⟨j, hjf, hqj, hjfl⟩ := h.live_slot q hq
        refine ⟨j, Nat.lt_succ_of_lt hjf, hqj, ?_⟩
        intro hmem
        rcases List.mem_append.1 hmem with e | e
        · exact hjfl e
        · rw [List.mem_singleton] at e; omega
      · intro j hj
        have hj2 : j < s.fresh_index_ + 1 := hj
        by_cases e : j = s.fresh_index_
        · right; rw [e]; simp
        · rcases h.covered j (by omega) with hl | hl
          · left; exact hl
          · right; exact List.mem_append_left _ hl
      · show s.free_head_ = slotPtr cfg block ((fl ++ [s.fresh_index_]).headD (s.fresh_index_ + 1))
        rw [headD_snoc]
        exact h.head
      · refine LinksTo_snoc cfg block _ _ _ fl
          (LinksTo_update cfg hw block _ _ _ _ fl hnot h.links) ?_
        exact Function.update_same _ _ _
      · show s.free_count_ = (fl ++ [s.fresh_index_]).length + (_ - (s.fresh_index_ + 1))
        have := h.count
        simp only [List.length_append, List.length_singleton]
        omega
      · show live.length + (fl ++ [s.fresh_index_]).length = s.fresh_index_ + 1
        have := h.total
        simp only [List.length_append, List.length_singleton]
        omega
  · refine ⟨s, fl, ?_, h, ?_, rfl, rfl, rfl, Nat.le_refl _⟩
    · unfold materialize
      rw [if_neg hlt]
    · intro e
      have := h.count
      rw [e] at this
      simp only [List.length_nil] at this
      omega

theorem Allocate_inv (cfg : Config) (hw : cfg.WF) (block : Nat) (hb : block ≠ 0)
    (s : Pool) (live fl : List Nat) (h : Inv cfg block s live fl) (hfc : s.free_count_ ≠ 0) :
    ∃ s2 fl2, Allocate cfg s false = .ok (s.free_head_, s2) ∧
      Inv cfg block s2 (s.free_head_ :: live) fl2 ∧ s2.free_count_ + 1 = s.free_count_ ∧
      s.free_head_ = slotAddr cfg block (fl.headD s.fresh_index_) ∧
      s.fresh_index_ ≤ s2.fresh_index_ := by
  obtain ⟨s1, fl1, hm, h1, hne, hhead, hcount, hhd, hmono⟩ :=
    materialize_inv cfg hw block hb s live fl h hfc
  have hc := hw.cap_int
  have hf1 := h1.fresh_le
  cases fl1 with
  | nil => exact absurd rfl hne
  | cons i rest =>
    have hif : i < s1.fresh_index_ := h1.fl_lt i (by simp)
    have hic : i < cfg.g_MaxNumberOfObjectsInPool := by omega
    have hh1 : s1.free_head_ = slotAddr cfg block i := by
      rw [h1.head, List.headD_cons, slotPtr_of_lt cfg block i hic]
    have hnd := List.nodup_cons.1 h1.fl_nodup
    have hrest : rest.headD s1.fresh_index_ ≤ cfg.g_MaxNumberOfObjectsInPool := by
      cases rest with
      | nil => exact hf1
      | cons j r =>
        have := h1.fl_lt j (by simp)
        simp only [List.headD_cons]
        omega
    have hlink : s1.next_free_index_ s1.free_head_ = some (rest.headD s1.fresh_index_) := by
      rw [hh1]; exact h1.links.1
    have hto := ToAddr_toInt cfg hw s1 _ hrest
    rw [h1.base] at hto
    have hs0 : s.free_head_ = slotAddr cfg block i := by rw [← hhead, hh1]
    refine ⟨{ s1 with free_head_ := slotPtr cfg block (rest.headD s1.fresh_index_)
                      free_count_ := s1.free_count_ - 1 }, rest, ?_, ?_, ?_, ?_, hmono⟩
    · have hb2 : s.m_pool_ ≠ 0 := by rw [h.base]; exact hb
      have hh2 : s.free_head_ ≠ 0 := by rw [hs0]; exact slotAddr_ne_zero cfg block i hb
      rw [hhead] at hlink
      simp only [Allocate, if_neg hfc, if_neg hb2, hm, hhead, if_neg hh2, hlink, hto,
        Bool.false_eq_true, if_false]
    · rw [hs0]
      constructor
      · exact h1.base
      · exact hf1
      · exact hnd.2
      · intro j hj
        exact h1.fl_lt j (List.mem_cons_of_mem _ hj)
      · refine List.nodup_cons.2 ⟨?_, h1.live_nodup⟩
        intro hmem
        obtain ⟨j, _, hqj, hjfl⟩ := h1.live_slot _ hmem
        have := slotAddr_inj cfg hw block i j hqj
        exact hjfl (by rw [← this]; simp)
      · intro q hq
        rcases List.mem_cons.1 hq with e | e
        · exact ⟨i, hif, e, hnd.1⟩
        · obtain ⟨j, hjf, hqj, hjfl⟩ := h1.live_slot q e
          exact ⟨j, hjf, hqj, fun m => hjfl (List.mem_cons_of_mem _ m)⟩
      · intro j hj
        rcases h1.covered j hj with hl | hl
        · left; exact List.mem_cons_of_mem _ hl
        · rcases List.mem_cons.1 hl with e | e
          · left; rw [e]; exact List.mem_cons_self _ _
          · right; exact e
      · rfl
      · exact h1.links.2
      · show s1.free_count_ - 1 = rest.length + (cfg.g_MaxNumberOfObjectsInPool - s1.fresh_index_)
        have := h1.count
        simp only [List.length_cons] at this
        omega
      · show (slotAddr cfg block i :: live).length + rest.length = s1.fresh_index_
        have := h1.total
        simp only [List.length_cons] at this ⊢
        omega
    · show s1.free_count_ - 1 + 1 = s.free_count_
      omega
    · rw [hs0, ← hhd, List.headD_cons]

/-! ## Sequences of calls -/

theorem Inv_start (cfg : Config) (hw : cfg.WF) (block : Nat) :
    Inv cfg block (FixedSizeMemoryPool cfg block) [] [] := by
  constructor
  · rfl
  · exact Nat.zero_le _
  · exact List.nodup_nil
  · intro i hi; cases hi
  · exact List.nodup_nil
  · intro p hp; cases hp
  · intro i hi; exact absurd hi (Nat.not_lt_zero _)
  · show block = slotPtr cfg block 0
    rw [slotPtr_of_lt cfg block 0 hw.cap_pos]
    simp [slotAddr]
  · trivial
  · show cfg.g_MaxNumberOfObjectsInPool = 0 + (cfg.g_MaxNumberOfObjectsInPool - 0)
    omega
  · rfl

theorem RunInv_start (cfg : Config) (hw : cfg.WF) (block : Nat) :
    RunInv cfg block (Run.start cfg block) [] :=
  ⟨Inv_start cfg hw block, fun p hp => by cases hp⟩

theorem step_allocate_inv (cfg : Config) (hw : cfg.WF) (block : Nat) (hb : block ≠ 0)
    (r : Run) (fl : List Nat) (h : RunInv cfg block r fl) (hfc : r.pool.free_count_ ≠ 0) :
    ∃ s2 fl2, Allocate cfg r.pool false = .ok (r.pool.free_head_, s2) ∧
      step cfg r (.allocate false) = .ok (r.allocated r.pool.free_head_ s2) ∧
      RunInv cfg block (r.allocated r.pool.free_head_ s2) fl2 ∧
      s2.free_count_ + 1 = r.pool.free_count_ := by
  obtain ⟨s2, fl2, ha, hi, hc, _, hmono⟩ :=
    Allocate_inv cfg hw block hb r.pool r.live fl h.inv hfc
  refine ⟨s2, fl2, ha, ?_, ⟨hi, ?_⟩, hc⟩
  · simp only [step, ha]
  · intro p hp
    rcases List.mem_cons.1 hp with e | e
    · obtain ⟨i, hif, hpi, _⟩ := hi.live_slot p (by rw [e]; exact List.mem_cons_self _ _)
      exact ⟨i, hif, hpi⟩
    · obtain ⟨i, hif, hpi⟩ := h.returned_slot p e
      exact ⟨i, Nat.lt_of_lt_of_le hif hmono, hpi⟩

theorem step_deallocate_inv (cfg : Config) (hw : cfg.WF) (block : Nat) (hb : block ≠ 0)
    (r : Run) (fl : List Nat) (h : RunInv cfg block r fl) (p : Nat) (hp : p ∈ r.live) :
    ∃ i s1, p = slotAddr cfg block i ∧ p ≠ 0 ∧ Deallocate cfg r.pool p = .ok s1 ∧
      step cfg r (.deallocate p) = .ok (r.deallocated p s1) ∧
      RunInv cfg block (r.deallocated p s1) (i :: fl) ∧
      s1.free_head_ = p ∧ s1.free_count_ = r.pool.free_count_ + 1 := by
  obtain ⟨i, s1, hpi, _, _, hd, hi, hh, hc, hf⟩ :=
    Deallocate_inv cfg hw block hb r.pool r.live fl h.inv p hp
  have hp0 : p ≠ 0 := by rw [hpi]; exact slotAddr_ne_zero cfg block i hb
  refine ⟨i, s1, hpi, hp0, hd, ?_, ⟨hi, ?_⟩, hh, hc⟩
  · simp only [step, hd, if_neg hp0]
  · intro q hq
    obtain ⟨j, hjf, hqj⟩ := h.returned_slot q hq
    exact ⟨j, by show j < s1.fresh_index_; rw [hf]; exact hjf, hqj⟩

theorem step_inv (cfg : Config) (hw : cfg.WF) (block : Nat) (hb : block ≠ 0)
    (r : Run) (fl : List Nat) (h : RunInv cfg block r fl) (c : Call)
    (hc : c.admissible r = true) :
    ∃ r1 fl1, step cfg r c = .ok r1 ∧ RunInv cfg block r1 fl1 := by
  cases c with
  | allocate t =>
    simp only [Call.admissible, Bool.and_eq_true, decide_eq_true_eq, Bool.not_eq_true'] at hc
    obtain ⟨hfc, ht⟩ := hc
    subst ht
    obtain ⟨s2, fl2, _, hs, hi, _⟩ := step_allocate_inv cfg hw block hb r fl h hfc
    exact ⟨_, fl2, hs, hi⟩
  | deallocate p =>
    simp only [Call.admissible, Bool.or_eq_true, decide_eq_true_eq] at hc
    rcases hc with h0 | hl
    · subst h0
      refine ⟨r, fl, ?_, h⟩
      simp [step, Deallocate]
    · obtain ⟨i, s1, _, _, _, hs, hi, _⟩ := step_deallocate_inv cfg hw block hb r fl h p hl
      exact ⟨_, i :: fl, hs, hi⟩

theorem exec_inv (cfg : Config) (hw : cfg.WF) (block : Nat) (hb : block ≠ 0) (tr : List Call) :
    ∀ (r : Run) (fl : List Nat), RunInv cfg block r fl → respects cfg r tr = true →
      ∃ r1 fl1, exec cfg r tr = .ok r1 ∧ RunInv cfg block r1 fl1 := by
  induction tr with
  | nil =>
    intro r fl h _
    exact ⟨r, fl, rfl, h⟩
  | cons c cs ih =>
    intro r fl h hr
    simp only [respects, Bool.and_eq_true] at hr
    obtain ⟨r1, fl1, hs, h1⟩ := step_inv cfg hw block hb r fl h c hr.1
    rw [hs] at hr
    obtain ⟨r2, fl2, he, h2⟩ := ih r1 fl1 h1 hr.2
    refine ⟨r2, fl2, ?_, h2⟩
    simp only [exec, hs, he]

theorem exec_start_inv (cfg : Config) (hw : cfg.WF) (block : Nat) (hb : block ≠ 0)
    (tr : List Call) (hr : respects cfg (Run.start cfg block) tr = true) :
    ∃ r fl, exec cfg (Run.start cfg block) tr = .ok r ∧ RunInv cfg block r fl :=
  exec_inv cfg hw block hb tr _ [] (RunInv_start cfg hw block) hr

theorem demo_WF : demo.WF := ⟨by decide, by decide, by decide⟩

theorem exec_ok_inj {cfg : Config} {r0 : Run} {tr : List Call} {r r1 : Run}
    (h : exec cfg r0 tr = .ok r) (h1 : exec cfg r0 tr = .ok r1) : r1 = r := by
  rw [h] at h1
  exact (Except.ok.inj h1).symm

/-! ## The capacity invariant -/

/-- C1, as stated, fails: on the pool as shipped (capacity 1000), allocating
one object and deallocating it twice takes no fatal path (the address passes
`ValidateMemory` both times) and leaves `free_count_` at 1001, above the
capacity. -/
theorem free_count_exceeds_capacity_after_double_free :
    ∃ r, exec (shipped 16) (Run.start (shipped 16) 4096)
        [.allocate false, .deallocate 4096, .deallocate 4096] = .ok r ∧
      r.pool.free_count_ = 1001 ∧ Capacity (shipped 16) r.pool = 1000 ∧
      ¬ (r.pool.free_count_ ≤ Capacity (shipped 16) r.pool) :=
  ⟨_, rfl, by decide, by decide, by decide⟩

theorem respects_append (cfg : Config) (a b : List Call) :
    ∀ (r : Run), respects cfg r (a ++ b) = true → respects cfg r a = true := by
  induction a with
  | nil => intro r _; rfl
  | cons c cs ih =>
    intro r h
    simp only [List.cons_append, respects, Bool.and_eq_true] at h ⊢
    refine ⟨h.1, ?_⟩
    cases hs : step cfg r c with
    | error e => rfl
    | ok r1 =>
      have h2 := h.2
      rw [hs] at h2
      exact ih r1 h2

/-- C1, amended: for every sequence of calls on a freshly constructed pool
that respects the contract (`Allocate` only while `free_count_ != 0`,
`Deallocate` only with null or with a live address), no call takes a fatal
path and `0 <= free_count_ <= capacity` holds after every call: after the
first `k` calls, for every `k`. -/
theorem free_count_le_capacity (cfg : Config) (hw : cfg.WF) (block : Nat) (hb : block ≠ 0)
    (tr : List Call) (hr : respects cfg (Run.start cfg block) tr = true) (k : Nat) :
    ∃ r, exec cfg (Run.start cfg block) (tr.take k) = .ok r ∧
      0 ≤ r.pool.free_count_ ∧ r.pool.free_count_ ≤ cfg.g_MaxNumberOfObjectsInPool := by
  have hk : respects cfg (Run.start cfg block) (tr.take k) = true := by
    apply respects_append cfg (tr.take k) (tr.drop k)
    rw [List.take_append_drop]
    exact hr
  obtain ⟨r, fl, he, hi⟩ := exec_start_inv cfg hw block hb (tr.take k) hk
  have := hi.inv.count_le
  exact ⟨r, he, Nat.zero_le _, by omega⟩

/-- Witness for C1 (amended): allocate twice, free the first block, allocate
again; the bound is read off after the third call. -/
theorem free_count_le_capacity_witness :
    respects demo (Run.start demo 4096)
        [.allocate false, .allocate false, .deallocate 4096, .allocate false] = true ∧
      ∃ r, exec demo (Run.start demo 4096)
          ([Call.allocate false, .allocate false, .deallocate 4096, .allocate false].take 3)
            = .ok r ∧
        0 ≤ r.pool.free_count_ ∧ r.pool.free_count_ ≤ demo.g_MaxNumberOfObjectsInPool :=
  ⟨by decide, free_count_le_capacity demo demo_WF 4096 (by decide) _ (by decide) 3⟩

/-! ## No aliasing -/

/-- C2: for every contract-respecting sequence of calls on a freshly
constructed pool, the addresses that are live afterwards are pairwise distinct
(no address occurs twice among the live ones), and each is the address of a
slot with an index below the capacity. -/
theorem live_addresses_distinct (cfg : Config) (hw : cfg.WF) (block : Nat) (hb : block ≠ 0)
    (tr : List Call) (hr : respects cfg (Run.start cfg block) tr = true) :
    ∃ r, exec cfg (Run.start cfg block) tr = .ok r ∧ r.live.Nodup ∧
      ∀ p ∈ r.live, ∃ i, i < cfg.g_MaxNumberOfObjectsInPool ∧ p = slotAddr cfg block i := by
  obtain ⟨r, fl, he, hi⟩ := exec_start_inv cfg hw block hb tr hr
  refine ⟨r, he, hi.inv.live_nodup, ?_⟩
  intro p hp
  obtain ⟨i, hif, hpi, _⟩ := hi.inv.live_slot p hp
  have hf := hi.inv.fresh_le
  exact ⟨i, by omega, hpi⟩

/-- Witness for C2: three allocations with a deallocation in between. -/
theorem live_addresses_distinct_witness :
    respects demo (Run.start demo 4096)
        [.allocate false, .allocate false, .deallocate 4096, .allocate false] = true ∧
      ∃ r, exec demo (Run.start demo 4096)
          [.allocate false, .allocate false, .deallocate 4096, .allocate false] = .ok r ∧
        r.live.Nodup ∧
        ∀ p ∈ r.live, ∃ i, i < demo.g_MaxNumberOfObjectsInPool ∧ p = slotAddr demo 4096 i :=
  ⟨by decide, live_addresses_distinct demo demo_WF 4096 (by decide) _ (by decide)⟩

/-! ## Ownership of the returned addresses -/

/-- C3: for every contract-respecting sequence of calls on a freshly
constructed pool, every address that `Allocate` returned is in the set
`GetAddressList()` and is `m_pool_ + i * sizeof(MemoryCb)` for an index
`i < capacity`. -/
theorem returned_addresses_listed (cfg : Config) (hw : cfg.WF) (block : Nat) (hb : block ≠ 0)
    (tr : List Call) (hr : respects cfg (Run.start cfg block) tr = true) :
    ∃ r, exec cfg (Run.start cfg block) tr = .ok r ∧
      ∀ p ∈ r.returned, p ∈ GetAddressList cfg r.pool ∧
        ∃ i, i < cfg.g_MaxNumberOfObjectsInPool ∧ p = r.pool.m_pool_ + i * cfg.sizeofMemoryCb := by
  obtain ⟨r, fl, he, hi⟩ := exec_start_inv cfg hw block hb tr hr
  refine ⟨r, he, ?_⟩
  intro p hp
  obtain ⟨i, hif, hpi⟩ := hi.returned_slot p hp
  have hf := hi.inv.fresh_le
  have hic : i < cfg.g_MaxNumberOfObjectsInPool := by omega
  have hm := hi.inv.base
  constructor
  · unfold GetAddressList
    rw [Finset.mem_image]
    exact ⟨i, Finset.mem_range.2 hic, by rw [hm, hpi]⟩
  · exact ⟨i, hic, by rw [hm, hpi]; rfl⟩

/-- Witness for C3: four returned addresses, one of them reused. -/
theorem returned_addresses_listed_witness :
    respects demo (Run.start demo 4096)
        [.allocate false, .allocate false, .deallocate 4096, .allocate false,
         .allocate false] = true ∧
      ∃ r, exec demo (Run.start demo 4096)
          [.allocate false, .allocate false, .deallocate 4096, .allocate false,
           .allocate false] = .ok r ∧
        ∀ p ∈ r.returned, p ∈ GetAddressList demo r.pool ∧
          ∃ i, i < demo.g_MaxNumberOfObjectsInPool ∧
            p = r.pool.m_pool_ + i * demo.sizeofMemoryCb :=
  ⟨by decide, returned_addresses_listed demo demo_WF 4096 (by decide) _ (by decide)⟩

/-! ## Reuse order -/

/-- C4: in every state reached by a contract-respecting sequence of calls, for
two distinct live addresses `A` and `B`, `Deallocate(A)` and then
`Deallocate(B)` return, and the next `Allocate` returns `B`. -/
theorem lifo_reuse (cfg : Config) (hw : cfg.WF) (block : Nat) (hb : block ≠ 0)
    (tr : List Call) (hr : respects cfg (Run.start cfg block) tr = true)
    (r : Run) (he : exec cfg (Run.start cfg block) tr = .ok r)
    (A B : Nat) (hA : A ∈ r.live) (hB : B ∈ r.live) (hAB : A ≠ B) :
    ∃ s1 s2 s3, Deallocate cfg r.pool A = .ok s1 ∧ Deallocate cfg s1 B = .ok s2 ∧
      Allocate cfg s2 false = .ok (B, s3) := by
  obtain ⟨r0, fl, he0, hi⟩ := exec_start_inv cfg hw block hb tr hr
  have hr0 := exec_ok_inj he he0
  subst hr0
  obtain ⟨i, s1, _, _, hd1, _, hi1, _, _⟩ := step_deallocate_inv cfg hw block hb _ fl hi A hA
  have hB1 : B ∈ (r0.deallocated A s1).live :=
    (List.mem_erase_of_ne (fun e => hAB e.symm)).2 hB
  obtain ⟨j, s2, _, _, hd2, _, hi2, hh2, hc2⟩ :=
    step_deallocate_inv cfg hw block hb _ (i :: fl) hi1 B hB1
  have hfc : ((r0.deallocated A s1).deallocated B s2).pool.free_count_ ≠ 0 := by
    show s2.free_count_ ≠ 0
    rw [hc2]
    exact Nat.succ_ne_zero _
  obtain ⟨s3, _, ha, _⟩ := step_allocate_inv cfg hw block hb _ (j :: i :: fl) hi2 hfc
  refine ⟨s1, s2, s3, hd1, hd2, ?_⟩
  have ha2 : Allocate cfg s2 false = .ok (s2.free_head_, s3) := ha
  rw [ha2, hh2]

/-- Witness for C4: three live objects; the first and then the second are freed. -/
theorem lifo_reuse_witness :
    ∃ r, exec demo (Run.start demo 4096) [.allocate false, .allocate false, .allocate false]
        = .ok r ∧ 4096 ∈ r.live ∧ 4112 ∈ r.live ∧
      ∃ s1 s2 s3, Deallocate demo r.pool 4096 = .ok s1 ∧ Deallocate demo s1 4112 = .ok s2 ∧
        Allocate demo s2 false = .ok (4112, s3) := by
  refine ⟨_, rfl, by decide, by decide, ?_⟩
  exact lifo_reuse demo demo_WF 4096 (by decide)
    [.allocate false, .allocate false, .allocate false] (by decide) _ rfl 4096 4112
    (by decide) (by decide) (by decide)

/-! ## Exhaustion -/

theorem exec_allocations (cfg : Config) (hw : cfg.WF) (block : Nat) (hb : block ≠ 0) (k : Nat) :
    ∀ (r : Run) (fl : List Nat), RunInv cfg block r fl → k ≤ r.pool.free_count_ →
      r.returned = r.live →
      ∃ r1 fl1, exec cfg r (List.replicate k (.allocate false)) = .ok r1 ∧
        RunInv cfg block r1 fl1 ∧ r1.pool.free_count_ + k = r.pool.free_count_ ∧
        r1.returned = r1.live ∧ r1.live.length = r.live.length + k := by
  induction k with
  | zero =>
    intro r fl h _ hrl
    exact ⟨r, fl, rfl, h, rfl, hrl, rfl⟩
  | succ k ih =>
    intro r fl h hk hrl
    have hfc : r.pool.free_count_ ≠ 0 := by omega
    obtain ⟨s2, fl2, _, hs, hi, hc⟩ := step_allocate_inv cfg hw block hb r fl h hfc
    have hk2 : k ≤ (r.allocated r.pool.free_head_ s2).pool.free_count_ := by
      show k ≤ s2.free_count_
      omega
    have hrl2 : (r.allocated r.pool.free_head_ s2).returned
        = (r.allocated r.pool.free_head_ s2).live := by
      show r.pool.free_head_ :: r.returned = r.pool.free_head_ :: r.live
      rw [hrl]
    obtain ⟨r1, fl1, he, hi1, hc1, hrl1, hl1⟩ := ih _ fl2 hi hk2 hrl2
    refine ⟨r1, fl1, ?_, hi1, ?_, hrl1, ?_⟩
    · simp only [List.replicate_succ, exec, hs, he]
    · have : (r.allocated r.pool.free_head_ s2).pool.free_count_ = s2.free_count_ := rfl
      omega
    · have : (r.allocated r.pool.free_head_ s2).live.length = r.live.length + 1 := rfl
      omega

/-- C5: on a freshly constructed pool of capacity `K`, `K` consecutive
`Allocate` calls all return, the `K` returned addresses are pairwise distinct,
and one more `Allocate` stops at `assert(free_count_ != 0)`. -/
theorem exhaustion (cfg : Config) (hw : cfg.WF) (block : Nat) (hb : block ≠ 0) :
    ∃ r, exec cfg (Run.start cfg block)
        (List.replicate cfg.g_MaxNumberOfObjectsInPool (.allocate false)) = .ok r ∧
      r.returned.length = cfg.g_MaxNumberOfObjectsInPool ∧ r.returned.Nodup ∧
      ∀ t, Allocate cfg r.pool t = .error .capacityExhausted := by
  obtain ⟨r, fl, he, hi, hc, hrl, hl⟩ :=
    exec_allocations cfg hw block hb cfg.g_MaxNumberOfObjectsInPool (Run.start cfg block) []
      (RunInv_start cfg hw block) (Nat.le_refl _) rfl
  have hc0 : r.pool.free_count_ = 0 := by
    have : (Run.start cfg block).pool.free_count_ = cfg.g_MaxNumberOfObjectsInPool := rfl
    omega
  refine ⟨r, he, ?_, ?_, ?_⟩
  · rw [hrl, hl]
    exact Nat.zero_add _
  · rw [hrl]
    exact hi.inv.live_nodup
  · intro t
    simp only [Allocate, hc0, if_true]

/-- Witness for C5: the pool of three blocks. -/
theorem exhaustion_witness :
    ∃ r, exec demo (Run.start demo 4096)
        (List.replicate demo.g_MaxNumberOfObjectsInPool (.allocate false)) = .ok r ∧
      r.returned.length = demo.g_MaxNumberOfObjectsInPool ∧ r.returned.Nodup ∧
      ∀ t, Allocate demo r.pool t = .error .capacityExhausted :=
  exhaustion demo demo_WF 4096 (by decide)

/-! ## The full cycle -/

/-- C6: for every capacity `K >= 1`, after `K` allocations on a fresh pool
`free_head_` is null and `free_count_` is 0, and for every live address `b`,
`Deallocate(b)` followed by `Allocate` returns `b` and leaves `free_count_`
at 0. -/
theorem full_cycle (cfg : Config) (hw : cfg.WF) (block : Nat) (hb : block ≠ 0) :
    ∃ r, exec cfg (Run.start cfg block)
        (List.replicate cfg.g_MaxNumberOfObjectsInPool (.allocate false)) = .ok r ∧
      r.live.length = cfg.g_MaxNumberOfObjectsInPool ∧
      r.pool.free_head_ = 0 ∧ r.pool.free_count_ = 0 ∧
      ∀ b ∈ r.live, ∃ s1 s2, Deallocate cfg r.pool b = .ok s1 ∧
        Allocate cfg s1 false = .ok (b, s2) ∧ s2.free_count_ = 0 := by
  obtain ⟨r, fl, he, hi, hc, hrl, hl⟩ :=
    exec_allocations cfg hw block hb cfg.g_MaxNumberOfObjectsInPool (Run.start cfg block) []
      (RunInv_start cfg hw block) (Nat.le_refl _) rfl
  have hc0 : r.pool.free_count_ = 0 := by
    have : (Run.start cfg block).pool.free_count_ = cfg.g_MaxNumberOfObjectsInPool := rfl
    omega
  have hcount := hi.inv.count
  have hfl : fl = [] := List.eq_nil_of_length_eq_zero (by omega)
  have hfresh : r.pool.fresh_index_ = cfg.g_MaxNumberOfObjectsInPool := by
    have := hi.inv.fresh_le
    omega
  refine ⟨r, he, ?_, ?_, hc0, ?_⟩
  · rw [hl]
    exact Nat.zero_add _
  · rw [hi.inv.head, hfl, List.headD_nil, hfresh]
    simp [slotPtr]
  · intro b hb1
    obtain ⟨i, s1, _, _, hd, _, hi1, hh, hc1⟩ :=
      step_deallocate_inv cfg hw block hb r fl hi b hb1
    have hfc : (r.deallocated b s1).pool.free_count_ ≠ 0 := by
      show s1.free_count_ ≠ 0
      omega
    obtain ⟨s2, _, ha, _, _, hc2⟩ := step_allocate_inv cfg hw block hb _ (i :: fl) hi1 hfc
    have ha2 : Allocate cfg s1 false = .ok (s1.free_head_, s2) := ha
    have hc3 : s2.free_count_ + 1 = s1.free_count_ := hc2
    refine ⟨s1, s2, hd, ?_, by omega⟩
    rw [ha2, hh]

/-- Witness for C6: the scenario of capacity 3. -/
theorem full_cycle_witness :
    ∃ r, exec demo (Run.start demo 4096)
        (List.replicate demo.g_MaxNumberOfObjectsInPool (.allocate false)) = .ok r ∧
      r.live.length = demo.g_MaxNumberOfObjectsInPool ∧
      r.pool.free_head_ = 0 ∧ r.pool.free_count_ = 0 ∧
      ∀ b ∈ r.live, ∃ s1 s2, Deallocate demo r.pool b = .ok s1 ∧
        Allocate demo s1 false = .ok (b, s2) ∧ s2.free_count_ = 0 :=
  full_cycle demo demo_WF 4096 (by decide)

/-! ## Deallocate: null and foreign addresses -/

/-- C7: for every pool state, `Deallocate(nullptr)` returns and leaves the
pool as it was: `free_head_`, `free_count_`, `fresh_index_` and every
`next_free_index_` are unchanged. -/
theorem Deallocate_null (cfg : Config) (s : Pool) : Deallocate cfg s 0 = .ok s := by
  simp [Deallocate]

/-- C8: for every pool state and every non-null address `p`, `Deallocate(p)`
stops at the assertion of `ValidateMemory` exactly when `p` is outside
`[m_pool_, m_pool_ + (capacity - 1) * sizeof(MemoryCb)]`, and returns
otherwise; in particular every address outside the storage
`[m_pool_, m_pool_ + capacity * sizeof(MemoryCb))` is rejected. -/
theorem Deallocate_invalid_address_iff (cfg : Config) (hw : cfg.WF) (s : Pool) (p : Nat)
    (hp : p ≠ 0) :
    (Deallocate cfg s p = .error .invalidAddress ↔
      ¬ (s.m_pool_ ≤ p ∧
         p ≤ s.m_pool_ + (cfg.g_MaxNumberOfObjectsInPool - 1) * cfg.sizeofMemoryCb)) ∧
    ((s.m_pool_ ≤ p ∧
        p ≤ s.m_pool_ + (cfg.g_MaxNumberOfObjectsInPool - 1) * cfg.sizeofMemoryCb) →
      ∃ s1, Deallocate cfg s p = .ok s1) ∧
    ((p < s.m_pool_ ∨ s.m_pool_ + cfg.g_MaxNumberOfObjectsInPool * cfg.sizeofMemoryCb ≤ p) →
      Deallocate cfg s p = .error .invalidAddress) := by
  have hin : (s.m_pool_ ≤ p ∧
        p ≤ s.m_pool_ + (cfg.g_MaxNumberOfObjectsInPool - 1) * cfg.sizeofMemoryCb) →
      ∃ s1, Deallocate cfg s p = .ok s1 := by
    intro h
    have hv : ValidateMemory cfg s p = .ok () := by
      simp only [ValidateMemory, slotAddr, Nat.zero_mul, Nat.add_zero, ge_iff_le]
      rw [if_pos h]
    cases hd : Deallocate cfg s p with
    | ok s1 => exact ⟨s1, rfl⟩
    | error e =>
      exfalso
      by_cases hz : s.free_head_ = 0
      · simp [Deallocate, hp, hv, hz] at hd
      · simp [Deallocate, hp, hv, hz, ToIndex] at hd
  have hout : ¬ (s.m_pool_ ≤ p ∧
        p ≤ s.m_pool_ + (cfg.g_MaxNumberOfObjectsInPool - 1) * cfg.sizeofMemoryCb) →
      Deallocate cfg s p = .error .invalidAddress := by
    intro h
    have hv : ValidateMemory cfg s p = .error .invalidAddress := by
      simp only [ValidateMemory, slotAddr, Nat.zero_mul, Nat.add_zero, ge_iff_le]
      rw [if_neg h]
    simp only [Deallocate, if_neg hp, hv]
  refine ⟨⟨?_, hout⟩, hin, ?_⟩
  · intro he hr
    obtain ⟨s1, h1⟩ := hin hr
    rw [h1] at he
    cases he
  · intro h
    apply hout
    intro hr
    have hs := hw.size_pos
    have hc := hw.cap_pos
    have : (cfg.g_MaxNumberOfObjectsInPool - 1) * cfg.sizeofMemoryCb + cfg.sizeofMemoryCb
        = cfg.g_MaxNumberOfObjectsInPool * cfg.sizeofMemoryCb := by
      rw [← Nat.succ_mul]
      congr 1
      omega
    omega

/-- Witness for C8: an address one byte past the start of the last slot of the
pool as shipped is rejected. -/
theorem Deallocate_invalid_address_iff_witness :
    Deallocate (shipped 16) (FixedSizeMemoryPool (shipped 16) 4096) 20081
      = .error .invalidAddress :=
  ((Deallocate_invalid_address_iff (shipped 16) ⟨by decide, by decide, by decide⟩
      (FixedSizeMemoryPool (shipped 16) 4096) 20081 (by decide)).1).2 (by decide)

/-! ## Bookkeeping of `free_count_` -/

theorem materialize_free_count (cfg : Config) (s s1 : Pool) (h : materialize cfg s = .ok s1) :
    s1.free_count_ = s.free_count_ := by
  unfold materialize at h
  split at h
  · split at h
    · cases h
    · split at h
      · cases h
      · cases h
        rfl
  · cases h
    rfl

theorem Allocate_free_count (cfg : Config) (s s2 : Pool) (t : Bool) (mem : Nat)
    (h : Allocate cfg s t = .ok (mem, s2)) :
    s.free_count_ ≠ 0 ∧ s2.free_count_ = s.free_count_ - 1 := by
  unfold Allocate at h
  split at h
  · cases h
  · rename_i hfc
    split at h
    · cases h
    · split at h
      · cases h
      · rename_i s1 hm
        have h1 := materialize_free_count cfg s s1 hm
        split at h
        · cases h
        · split at h
          · cases h
          · split at h
            · cases h
            · split at h
              · cases h
              · cases h
                exact ⟨hfc, by rw [← h1]⟩

theorem Deallocate_free_count (cfg : Config) (s s1 : Pool) (p : Nat) (hp : p ≠ 0)
    (h : Deallocate cfg s p = .ok s1) :
    s1.free_count_ = (s.free_count_ + 1) % 18446744073709551616 := by
  unfold Deallocate at h
  rw [if_neg hp] at h
  cases hv : ValidateMemory cfg s p with
  | error e =>
    simp only [hv] at h
    cases h
  | ok u =>
    simp only [hv] at h
    by_cases hz : s.free_head_ = 0
    · simp only [hz, ne_eq, not_true_eq_false, if_false] at h
      cases h
      rfl
    · simp only [ne_eq, hz, not_false_eq_true, if_true] at h
      cases hi : ToIndex cfg s s.free_head_ with
      | error e =>
        simp only [hi] at h
        cases h
      | ok index =>
        simp only [hi] at h
        cases h
        rfl

theorem allocations_cons (c : Call) (cs : List Call) :
    allocations (c :: cs) = allocations cs + (match c with
      | .allocate _ => 1
      | .deallocate _ => 0) := by
  unfold allocations
  rw [List.countP_cons]
  cases c <;> rfl

theorem releases_cons (c : Call) (cs : List Call) :
    releases (c :: cs) = releases cs + (match c with
      | .allocate _ => 0
      | .deallocate ptr => if ptr = 0 then 0 else 1) := by
  unfold releases
  rw [List.countP_cons]
  cases c with
  | allocate t => rfl
  | deallocate ptr =>
    by_cases h : ptr = 0
    · simp [h]
    · simp [h]

theorem step_free_count (cfg : Config) (r r1 : Run) (c : Call) (h : step cfg r c = .ok r1) :
    match c with
    | .allocate _ => r.pool.free_count_ ≠ 0 ∧ r1.pool.free_count_ = r.pool.free_count_ - 1
    | .deallocate ptr =>
      r1.pool.free_count_ =
        if ptr = 0 then r.pool.free_count_
        else (r.pool.free_count_ + 1) % 18446744073709551616 := by
  cases c with
  | allocate t =>
    simp only [step] at h
    split at h
    · cases h
    · rename_i mem s2 ha
      cases h
      exact Allocate_free_count cfg r.pool s2 t mem ha
  | deallocate ptr =>
    simp only [step] at h
    split at h
    · cases h
    · rename_i s1 hd
      by_cases hp : ptr = 0
      · rw [if_pos hp] at h
        cases h
        subst hp
        simp only [Deallocate, if_true] at hd
        cases hd
        simp
      · rw [if_neg hp] at h
        cases h
        simp only [if_neg hp]
        exact Deallocate_free_count cfg r.pool s1 ptr hp hd

theorem exec_free_count_mod (cfg : Config) (tr : List Call) :
    ∀ (r r1 : Run), exec cfg r tr = .ok r1 → r.pool.free_count_ < 18446744073709551616 →
      r1.pool.free_count_ < 18446744073709551616 ∧
      (r1.pool.free_count_ : Int) =
        ((r.pool.free_count_ : Int) - (allocations tr : Int) + (releases tr : Int))
          % 18446744073709551616 := by
  induction tr with
  | nil =>
    intro r r1 h hlt
    cases h
    refine ⟨hlt, ?_⟩
    simp only [allocations, releases, List.countP_nil]
    omega
  | cons c cs ih =>
    intro r r1 h hlt
    simp only [exec] at h
    split at h
    · cases h
    · rename_i r2 hs
      have hstep := step_free_count cfg r r2 c hs
      rw [allocations_cons, releases_cons]
      cases c with
      | allocate t =>
        simp only at hstep
        obtain ⟨h0, h2⟩ := hstep
        obtain ⟨hb, he⟩ := ih r2 r1 h (by omega)
        refine ⟨hb, ?_⟩
        rw [he]
        push_cast
        omega
      | deallocate ptr =>
        simp only at hstep
        by_cases hp : ptr = 0
        · rw [if_pos hp] at hstep
          obtain ⟨hb, he⟩ := ih r2 r1 h (by omega)
          refine ⟨hb, ?_⟩
          rw [he, hstep]
          simp only [hp, if_true]
          push_cast
          omega
        · rw [if_neg hp] at hstep
          obtain ⟨hb, he⟩ := ih r2 r1 h (by omega)
          refine ⟨hb, ?_⟩
          rw [he, hstep]
          simp only [hp, if_false]
          push_cast
          omega

theorem exec_free_count_exact (cfg : Config) (tr : List Call) :
    ∀ (r r1 : Run), exec cfg r tr = .ok r1 →
      r.pool.free_count_ + releases tr < 18446744073709551616 →
      r1.pool.free_count_ + allocations tr = r.pool.free_count_ + releases tr := by
  induction tr with
  | nil =>
    intro r r1 h _
    cases h
    simp [allocations, releases]
  | cons c cs ih =>
    intro r r1 h hlt
    simp only [exec] at h
    split at h
    · cases h
    · rename_i r2 hs
      have hstep := step_free_count cfg r r2 c hs
      rw [allocations_cons, releases_cons]
      rw [releases_cons] at hlt
      cases c with
      | allocate t =>
        simp only at hstep hlt
        obtain ⟨h0, h2⟩ := hstep
        have := ih r2 r1 h (by omega)
        simp only
        omega
      | deallocate ptr =>
        simp only at hstep hlt
        by_cases hp : ptr = 0
        · rw [if_pos hp] at hstep
          simp only [hp, if_true] at hlt ⊢
          have := ih r2 r1 h (by omega)
          omega
        · rw [if_neg hp] at hstep
          simp only [hp, if_false] at hlt ⊢
          have hm : (r.pool.free_count_ + 1) % 18446744073709551616 = r.pool.free_count_ + 1 :=
            Nat.mod_eq_of_lt (by omega)
          rw [hm] at hstep
          have := ih r2 r1 h (by omega)
          omega

/-- C9: for every sequence of calls on a freshly constructed pool in which
every call returns, `free_count_` is the capacity minus the number of
`Allocate` calls plus the number of `Deallocate` calls with a non-null
argument.  The counter is a `uint64_t`, so the equality is one of 64-bit
unsigned values; it is an equality of integers as long as the capacity plus the
number of such `Deallocate` calls is below `2^64`, and then the objects
constructed and not yet destroyed number `capacity - free_count_`. -/
theorem free_count_bookkeeping (cfg : Config) (hw : cfg.WF) (block : Nat) (tr : List Call)
    (r : Run) (he : exec cfg (Run.start cfg block) tr = .ok r) :
    (r.pool.free_count_ : Int) =
        ((cfg.g_MaxNumberOfObjectsInPool : Int) - (allocations tr : Int) + (releases tr : Int))
          % 18446744073709551616 ∧
      (cfg.g_MaxNumberOfObjectsInPool + releases tr < 18446744073709551616 →
        (r.pool.free_count_ : Int) =
            (cfg.g_MaxNumberOfObjectsInPool : Int) - (allocations tr : Int) + (releases tr : Int) ∧
          (allocations tr : Int) - (releases tr : Int) =
            (cfg.g_MaxNumberOfObjectsInPool : Int) - (r.pool.free_count_ : Int)) := by
  have hc := hw.cap_int
  have h0 : (Run.start cfg block).pool.free_count_ = cfg.g_MaxNumberOfObjectsInPool := rfl
  have hmod := (exec_free_count_mod cfg tr _ r he (by rw [h0]; omega)).2
  rw [h0] at hmod
  refine ⟨hmod, ?_⟩
  intro hlt
  have hex := exec_free_count_exact cfg tr _ r he (by rw [h0]; exact hlt)
  rw [h0] at hex
  constructor <;> omega

/-- Witness for C9: three allocations, one deallocation of a live block and
one of null leave one block free in the pool of three. -/
theorem free_count_bookkeeping_witness :
    ∃ r, exec demo (Run.start demo 4096)
        [.allocate false, .allocate false, .deallocate 4096, .deallocate 0, .allocate false]
          = .ok r ∧ r.pool.free_count_ = 1 ∧
      allocations
        [.allocate false, .allocate false, .deallocate 4096, .deallocate 0, .allocate false] = 3 ∧
      releases
        [.allocate false, .allocate false, .deallocate 4096, .deallocate 0, .allocate false] = 1 ∧
      (r.pool.free_count_ : Int) =
        ((demo.g_MaxNumberOfObjectsInPool : Int)
          - (allocations [.allocate false, .allocate false, .deallocate 4096, .deallocate 0,
              .allocate false] : Int)
          + (releases [.allocate false, .allocate false, .deallocate 4096, .deallocate 0,
              .allocate false] : Int)) % 18446744073709551616 := by
  refine ⟨_, rfl, by decide, by decide, by decide, ?_⟩
  exact (free_count_bookkeeping demo demo_WF 4096
    [.allocate false, .allocate false, .deallocate 4096, .deallocate 0, .allocate false]
    _ rfl).1

/-! ## Double free -/

theorem LinksTo_prefix (cfg : Config) (b : Nat) (links : Nat → Option Nat) (t x : Nat)
    (front back : List Nat) (h : LinksTo cfg b links t (front ++ x :: back)) :
    LinksTo cfg b links x front := by
  induction front with
  | nil => trivial
  | cons a rest ih =>
    refine ⟨?_, ih h.2⟩
    have h1 := h.1
    rw [h1]
    cases rest <;> rfl

theorem follow_chain (cfg : Config) (hw : cfg.WF) (block : Nat) (hb : block ≠ 0) (s : Pool)
    (hm : s.m_pool_ = block) (x : Nat) (hx : x < cfg.g_MaxNumberOfObjectsInPool)
    (front : List Nat) (hlt : ∀ j ∈ front, j < cfg.g_MaxNumberOfObjectsInPool)
    (h : LinksTo cfg block s.next_free_index_ x front) :
    follow cfg s front.length (slotAddr cfg block (front.headD x)) = some (slotAddr cfg block x) := by
  induction front with
  | nil => rfl
  | cons a rest ih =>
    have hrest : ∀ j ∈ rest, j < cfg.g_MaxNumberOfObjectsInPool :=
      fun j hj => hlt j (List.mem_cons_of_mem _ hj)
    have hv : rest.headD x < cfg.g_MaxNumberOfObjectsInPool := by
      cases rest with
      | nil => exact hx
      | cons c r => exact hrest c (List.mem_cons_self _ _)
    have hto := ToAddr_toInt cfg hw s (rest.headD x) (Nat.le_of_lt hv)
    rw [hm, slotPtr_of_lt cfg block _ hv] at hto
    have hsucc : successor cfg s (slotAddr cfg block a)
        = some (slotAddr cfg block (rest.headD x)) := by
      unfold successor
      rw [if_neg (slotAddr_ne_zero cfg block a hb), h.1]
      simp only [hto]
    show follow cfg s (rest.length + 1) (slotAddr cfg block a) = _
    simp only [follow, hsucc]
    exact ih hrest h.2

theorem follow_cycle (cfg : Config) (hw : cfg.WF) (block : Nat) (hb : block ≠ 0) (s : Pool)
    (hm : s.m_pool_ = block) (x : Nat) (hx : x < cfg.g_MaxNumberOfObjectsInPool)
    (front : List Nat) (hlt : ∀ j ∈ front, j < cfg.g_MaxNumberOfObjectsInPool)
    (hlink : s.next_free_index_ (slotAddr cfg block x) = some (front.headD x))
    (h : LinksTo cfg block s.next_free_index_ x front) :
    follow cfg s (front.length + 1) (slotAddr cfg block x) = some (slotAddr cfg block x) := by
  have hv : front.headD x < cfg.g_MaxNumberOfObjectsInPool := by
    cases front with
    | nil => exact hx
    | cons c r => exact hlt c (List.mem_cons_self _ _)
  have hto := ToAddr_toInt cfg hw s (front.headD x) (Nat.le_of_lt hv)
  rw [hm, slotPtr_of_lt cfg block _ hv] at hto
  have hsucc : successor cfg s (slotAddr cfg block x)
      = some (slotAddr cfg block (front.headD x)) := by
    unfold successor
    rw [if_neg (slotAddr_ne_zero cfg block x hb), hlink]
    simp only [hto]
  simp only [follow, hsucc]
  exact follow_chain cfg hw block hb s hm x hx front hlt h

/-- C10: a double free is not detected.  In every state reached by a
contract-respecting sequence of calls, for every address `p` that was returned
by `Allocate` and deallocated since, `p` is reachable from `free_head_` along
the links, `Deallocate(p)` returns, and afterwards following the links from
`free_head_` (which is `p`) comes back to `p`: the free list has a cycle. -/
theorem double_free_undetected (cfg : Config) (hw : cfg.WF) (block : Nat) (hb : block ≠ 0)
    (tr : List Call) (hr : respects cfg (Run.start cfg block) tr = true)
    (r : Run) (he : exec cfg (Run.start cfg block) tr = .ok r)
    (p : Nat) (hret : p ∈ r.returned) (hfree : p ∉ r.live) :
    (∃ m, follow cfg r.pool m r.pool.free_head_ = some p) ∧
      ∃ s1, Deallocate cfg r.pool p = .ok s1 ∧ s1.free_head_ = p ∧
        ∃ n, 0 < n ∧ follow cfg s1 n s1.free_head_ = some p := by
  obtain ⟨r0, fl, he0, hi⟩ := exec_start_inv cfg hw block hb tr hr
  have hr0 := exec_ok_inj he he0
  subst hr0
  obtain ⟨i, hif, hpi⟩ := hi.returned_slot p hret
  have hf := hi.inv.fresh_le
  have hic : i < cfg.g_MaxNumberOfObjectsInPool := by omega
  have hifl : i ∈ fl := by
    rcases hi.inv.covered i hif with hl | hl
    · exact absurd (hpi ▸ hl) hfree
    · exact hl
  obtain ⟨front, back, hsplit⟩ := List.append_of_mem hifl
  have hnd := hi.inv.fl_nodup
  rw [hsplit] at hnd
  have hnotin : i ∉ front := by
    intro hmem
    have := (List.nodup_append.1 hnd).2.2
    exact this hmem (List.mem_cons_self _ _)
  have hfront : ∀ j ∈ front, j < cfg.g_MaxNumberOfObjectsInPool := by
    intro j hj
    have := hi.inv.fl_lt j (by rw [hsplit]; exact List.mem_append_left _ hj)
    omega
  have hlinks := hi.inv.links
  rw [hsplit] at hlinks
  have hpre := LinksTo_prefix cfg block _ _ i front back hlinks
  have hhd : fl.headD r0.pool.fresh_index_ = front.headD i := by
    rw [hsplit]
    cases front <;> rfl
  have hhi : front.headD i < cfg.g_MaxNumberOfObjectsInPool := by
    cases front with
    | nil => exact hic
    | cons c rest => exact hfront c (List.mem_cons_self _ _)
  have hd := Deallocate_slot cfg hw block hb r0.pool r0.live fl hi.inv i hic
  rw [← hpi, hhd] at hd
  constructor
  · refine ⟨front.length, ?_⟩
    rw [hi.inv.head, hhd, slotPtr_of_lt cfg block _ hhi, hpi]
    exact follow_chain cfg hw block hb r0.pool hi.inv.base i hic front hfront hpre
  · refine ⟨_, hd, rfl, front.length + 1, Nat.succ_pos _, ?_⟩
    subst hpi
    refine follow_cycle cfg hw block hb _ ?_ i hic front hfront ?_ ?_
    · exact hi.inv.base
    · exact Function.update_same _ _ _
    · exact LinksTo_update cfg hw block _ _ i _ front hnotin hpre

/-- Witness for C10: allocate `a`, deallocate it, deallocate it again; the
second `Deallocate` returns and leaves the link of `a` pointing at `a`. -/
theorem double_free_undetected_witness :
    ∃ r, exec demo (Run.start demo 4096) [.allocate false, .deallocate 4096] = .ok r ∧
      4096 ∈ r.returned ∧ 4096 ∉ r.live ∧
      ((∃ m, follow demo r.pool m r.pool.free_head_ = some 4096) ∧
        ∃ s1, Deallocate demo r.pool 4096 = .ok s1 ∧ s1.free_head_ = 4096 ∧
          ∃ n, 0 < n ∧ follow demo s1 n s1.free_head_ = some 4096) ∧
      ∃ s1, Deallocate demo r.pool 4096 = .ok s1 ∧ successor demo s1 4096 = some 4096 := by
  refine ⟨_, rfl, by decide, by decide, ?_, _, rfl, by decide⟩
  exact double_free_undetected demo demo_WF 4096 (by decide)
    [.allocate false, .deallocate 4096] (by decide) _ rfl 4096 (by decide) (by decide)

/-! ## The steps of `Allocate` and `Deallocate` in an arbitrary state -/

theorem materialize_eq (cfg : Config) (hw : cfg.WF) (s : Pool) (hb : s.m_pool_ ≠ 0) :
    materialize cfg s =
      .ok (if s.fresh_index_ < cfg.g_MaxNumberOfObjectsInPool then
            { m_pool_ := s.m_pool_, free_head_ := s.free_head_, free_count_ := s.free_count_,
              fresh_index_ := s.fresh_index_ + 1,
              next_free_index_ := Function.update s.next_free_index_
                (slotAddr cfg s.m_pool_ s.fresh_index_) (some (s.fresh_index_ + 1)) }
          else s) := by
  have hc := hw.cap_int
  by_cases hlt : s.fresh_index_ < cfg.g_MaxNumberOfObjectsInPool
  · have hmod : (s.fresh_index_ + 1) % 18446744073709551616 = s.fresh_index_ + 1 :=
      Nat.mod_eq_of_lt (by omega)
    have hto : ToAddr cfg s (toInt s.fresh_index_) = .ok (slotAddr cfg s.m_pool_ s.fresh_index_) := by
      rw [ToAddr_toInt cfg hw s _ (by omega), slotPtr_of_lt cfg _ _ hlt]
    unfold materialize
    rw [if_pos hlt, if_pos hlt, hto]
    simp only [hmod]
    rw [if_neg (slotAddr_ne_zero cfg _ _ hb)]
  · unfold materialize
    rw [if_neg hlt, if_neg hlt]

theorem Allocate_ok (cfg : Config) (s s2 : Pool) (t : Bool) (mem : Nat)
    (h : Allocate cfg s t = .ok (mem, s2)) :
    ∃ s1 next head, s.free_count_ ≠ 0 ∧ s.m_pool_ ≠ 0 ∧ materialize cfg s = .ok s1 ∧
      mem = s1.free_head_ ∧ mem ≠ 0 ∧ s1.next_free_index_ mem = some next ∧
      ToAddr cfg s1 (toInt next) = .ok head ∧ t = false ∧
      s2.m_pool_ = s1.m_pool_ ∧ s2.free_head_ = head ∧
      s2.free_count_ = s1.free_count_ - 1 ∧ s2.fresh_index_ = s1.fresh_index_ ∧
      s2.next_free_index_ = s1.next_free_index_ := by
  unfold Allocate at h
  split at h
  · cases h
  · rename_i hfc
    split at h
    · cases h
    · rename_i hb
      split at h
      · cases h
      · rename_i s1 hm
        split at h
        · cases h
        · rename_i hh
          split at h
          · cases h
          · rename_i next hn
            split at h
            · cases h
            · rename_i head hto
              split at h
              · cases h
              · rename_i ht
                cases h
                exact ⟨s1, next, head, hfc, hb, hm, rfl, hh, hn, hto,
                  by simpa using ht, rfl, rfl, rfl, rfl, rfl⟩

theorem Deallocate_ok (cfg : Config) (s s1 : Pool) (p : Nat) (hp : p ≠ 0)
    (h : Deallocate cfg s p = .ok s1) :
    s1.m_pool_ = s.m_pool_ ∧ s1.free_head_ = p ∧ s1.fresh_index_ = s.fresh_index_ ∧
      (∀ a, a ≠ p → s1.next_free_index_ a = s.next_free_index_ a) ∧
      s1.next_free_index_ p ≠ none := by
  unfold Deallocate at h
  rw [if_neg hp] at h
  cases hv : ValidateMemory cfg s p with
  | error e =>
    simp only [hv] at h
    cases h
  | ok u =>
    simp only [hv] at h
    by_cases hz : s.free_head_ = 0
    · simp only [hz, ne_eq, not_true_eq_false, if_false] at h
      cases h
      refine ⟨rfl, rfl, rfl, fun a ha => Function.update_noteq ha _ _, ?_⟩
      show Function.update s.next_free_index_ p _ p ≠ none
      rw [Function.update_same]
      exact Option.some_ne_none _
    · simp only [ne_eq, hz, not_false_eq_true, if_true] at h
      cases hi : ToIndex cfg s s.free_head_ with
      | error e =>
        simp only [hi] at h
        cases h
      | ok index =>
        simp only [hi] at h
        cases h
        refine ⟨rfl, rfl, rfl, fun a ha => Function.update_noteq ha _ _, ?_⟩
        show Function.update s.next_free_index_ p _ p ≠ none
        rw [Function.update_same]
        exact Option.some_ne_none _

theorem Allocate_fault_after_asserts (cfg : Config) (s s1 : Pool) (t : Bool) (e : Fault)
    (hfc : s.free_count_ ≠ 0) (hb : s.m_pool_ ≠ 0) (hm : materialize cfg s = .ok s1)
    (he : Allocate cfg s t = .error e) :
    e ≠ .capacityExhausted ∧ e ≠ .poolIsNull := by
  unfold Allocate at he
  rw [if_neg hfc, if_neg hb, hm] at he
  simp only [] at he
  by_cases hh : s1.free_head_ = 0
  · rw [if_pos hh] at he
    cases he
    exact ⟨by decide, by decide⟩
  · rw [if_neg hh] at he
    cases hn : s1.next_free_index_ s1.free_head_ with
    | none =>
      simp only [hn] at he
      cases he
      exact ⟨by decide, by decide⟩
    | some next =>
      simp only [hn] at he
      have hto : ∀ x, ToAddr cfg s1 (toInt next) = .error x → x = .negativeIndex := by
        intro x hx
        unfold ToAddr at hx
        split at hx
        · cases hx
          rfl
        · split at hx <;> cases hx
      cases hx : ToAddr cfg s1 (toInt next) with
      | error x =>
        simp only [hx] at he
        have hxe := hto x hx
        subst hxe
        cases he
        exact ⟨by decide, by decide⟩
      | ok head =>
        simp only [hx] at he
        cases t with
        | false => simp at he
        | true =>
          simp only [if_true] at he
          cases he
          exact ⟨by decide, by decide⟩

/-! ## Address and index translation -/

/-- C20, as stated, fails: on the pool as shipped, `ToAddr(-1)` does not return
`nullptr`; it stops at `assert (index >= 0)`. -/
theorem ToAddr_negative_index_asserts :
    ToAddr (shipped 16) (FixedSizeMemoryPool (shipped 16) 4096) (-1) = .error .negativeIndex ∧
      ToAddr (shipped 16) (FixedSizeMemoryPool (shipped 16) 4096) (-1) ≠ .ok 0 := by
  have h : ToAddr (shipped 16) (FixedSizeMemoryPool (shipped 16) 4096) (-1)
      = .error .negativeIndex := rfl
  refine ⟨h, ?_⟩
  rw [h]
  intro e
  cases e

/-- C20, amended: for every integer index, `ToAddr(index)` returns the address
of the slot at that index when `0 <= index < capacity`, returns `nullptr` for
every index from the capacity on, and stops at `assert (index >= 0)` for every
negative index. -/
theorem ToAddr_cases (cfg : Config) (s : Pool) (index : Int) :
    (0 ≤ index → index < (cfg.g_MaxNumberOfObjectsInPool : Int) →
        ToAddr cfg s index = .ok (s.m_pool_ + index.toNat * cfg.sizeofMemoryCb)) ∧
      ((cfg.g_MaxNumberOfObjectsInPool : Int) ≤ index → ToAddr cfg s index = .ok 0) ∧
      (index < 0 → ToAddr cfg s index = .error .negativeIndex) := by
  refine ⟨?_, ?_, ?_⟩
  · intro h0 h1
    have h2 : ¬ index < 0 := by omega
    have h3 : ¬ index ≥ (cfg.g_MaxNumberOfObjectsInPool : Int) := by omega
    simp only [ToAddr, if_neg h2, if_neg h3, slotAddr]
  · intro h1
    have h2 : ¬ index < 0 := by omega
    have h3 : index ≥ (cfg.g_MaxNumberOfObjectsInPool : Int) := h1
    simp only [ToAddr, if_neg h2, if_pos h3]
  · intro h
    simp only [ToAddr, if_pos h]

/-- Witness for C20 (amended): the indices 1, 3 and -1 on the pool of three. -/
theorem ToAddr_cases_witness :
    ToAddr demo (FixedSizeMemoryPool demo 4096) 1 = .ok 4112 ∧
      ToAddr demo (FixedSizeMemoryPool demo 4096) 3 = .ok 0 ∧
      ToAddr demo (FixedSizeMemoryPool demo 4096) (-1) = .error .negativeIndex :=
  ⟨(ToAddr_cases demo (FixedSizeMemoryPool demo 4096) 1).1 (by decide) (by decide),
   (ToAddr_cases demo (FixedSizeMemoryPool demo 4096) 3).2.1 (by decide),
   (ToAddr_cases demo (FixedSizeMemoryPool demo 4096) (-1)).2.2 (by decide)⟩

/-! ## The materialization step -/

/-- C14: in every state with `free_count_ > 0` (of a pool whose storage
exists), the first block of `Allocate` returns; if `fresh_index_ < capacity`
it writes `fresh_index_ + 1` (the capacity, for the last slot) into the link of
the slot at the old `fresh_index_` and increases `fresh_index_` by one; if
`fresh_index_` is the capacity it changes nothing; no other link is written,
and when `Allocate` returns, `fresh_index_` and all links are as this block
left them. -/
theorem Allocate_materializes (cfg : Config) (hw : cfg.WF) (s : Pool)
    (hfc : s.free_count_ ≠ 0) (hb : s.m_pool_ ≠ 0) :
    (∀ t e, Allocate cfg s t = .error e → e ≠ .capacityExhausted ∧ e ≠ .poolIsNull) ∧
    ∃ s1, materialize cfg s = .ok s1 ∧
      (s.fresh_index_ < cfg.g_MaxNumberOfObjectsInPool →
        s1.next_free_index_ (slotAddr cfg s.m_pool_ s.fresh_index_) = some (s.fresh_index_ + 1) ∧
        s1.fresh_index_ = s.fresh_index_ + 1 ∧
        (s.fresh_index_ = cfg.g_MaxNumberOfObjectsInPool - 1 →
          s1.next_free_index_ (slotAddr cfg s.m_pool_ s.fresh_index_) =
            some cfg.g_MaxNumberOfObjectsInPool)) ∧
      (s.fresh_index_ = cfg.g_MaxNumberOfObjectsInPool →
        s1.fresh_index_ = s.fresh_index_ ∧ s1.next_free_index_ = s.next_free_index_) ∧
      (∀ a, a ≠ slotAddr cfg s.m_pool_ s.fresh_index_ →
        s1.next_free_index_ a = s.next_free_index_ a) ∧
      ∀ t mem s2, Allocate cfg s t = .ok (mem, s2) →
        s2.fresh_index_ = s1.fresh_index_ ∧ s2.next_free_index_ = s1.next_free_index_ := by
  have hm := materialize_eq cfg hw s hb
  have hcp := hw.cap_pos
  constructor
  · intro t e he
    exact Allocate_fault_after_asserts cfg s _ t e hfc hb hm he
  refine ⟨_, hm, ?_, ?_, ?_, ?_⟩
  · intro hlt
    rw [if_pos hlt]
    refine ⟨Function.update_same _ _ _, rfl, ?_⟩
    intro hlast
    show Function.update s.next_free_index_ _ _ _ = _
    rw [Function.update_same]
    congr 1
    omega
  · intro heq
    have hnl : ¬ s.fresh_index_ < cfg.g_MaxNumberOfObjectsInPool := by omega
    rw [if_neg hnl]
    exact ⟨rfl, rfl⟩
  · intro a ha
    by_cases hlt : s.fresh_index_ < cfg.g_MaxNumberOfObjectsInPool
    · rw [if_pos hlt]
      exact Function.update_noteq ha _ _
    · rw [if_neg hlt]
  · intro t mem s2 ha
    obtain ⟨s1, _, _, _, _, hm1, _, _, _, _, _, _, _, _, hf, hn⟩ := Allocate_ok cfg s s2 t mem ha
    rw [hm] at hm1
    have := Except.ok.inj hm1
    subst this
    exact ⟨hf, hn⟩

/-- Witness for C14: the first `Allocate` on the pool of three writes 1 into
the link of slot 0 and moves `fresh_index_` to 1. -/
theorem Allocate_materializes_witness :
    ∃ s2, Allocate demo (FixedSizeMemoryPool demo 4096) false = .ok (4096, s2) ∧
      s2.fresh_index_ = 1 ∧ s2.next_free_index_ 4096 = some 1 ∧
      s2.next_free_index_ 4112 = none ∧
      ((∀ t e, Allocate demo (FixedSizeMemoryPool demo 4096) t = .error e →
          e ≠ .capacityExhausted ∧ e ≠ .poolIsNull) ∧
      ∃ s1, materialize demo (FixedSizeMemoryPool demo 4096) = .ok s1 ∧
        ((FixedSizeMemoryPool demo 4096).fresh_index_ < demo.g_MaxNumberOfObjectsInPool →
          s1.next_free_index_ (slotAddr demo (FixedSizeMemoryPool demo 4096).m_pool_
              (FixedSizeMemoryPool demo 4096).fresh_index_)
            = some ((FixedSizeMemoryPool demo 4096).fresh_index_ + 1) ∧
          s1.fresh_index_ = (FixedSizeMemoryPool demo 4096).fresh_index_ + 1 ∧
          ((FixedSizeMemoryPool demo 4096).fresh_index_ = demo.g_MaxNumberOfObjectsInPool - 1 →
            s1.next_free_index_ (slotAddr demo (FixedSizeMemoryPool demo 4096).m_pool_
                (FixedSizeMemoryPool demo 4096).fresh_index_)
              = some demo.g_MaxNumberOfObjectsInPool)) ∧
        ((FixedSizeMemoryPool demo 4096).fresh_index_ = demo.g_MaxNumberOfObjectsInPool →
          s1.fresh_index_ = (FixedSizeMemoryPool demo 4096).fresh_index_ ∧
          s1.next_free_index_ = (FixedSizeMemoryPool demo 4096).next_free_index_) ∧
        (∀ a, a ≠ slotAddr demo (FixedSizeMemoryPool demo 4096).m_pool_
              (FixedSizeMemoryPool demo 4096).fresh_index_ →
          s1.next_free_index_ a = (FixedSizeMemoryPool demo 4096).next_free_index_ a) ∧
        ∀ t mem s2, Allocate demo (FixedSizeMemoryPool demo 4096) t = .ok (mem, s2) →
          s2.fresh_index_ = s1.fresh_index_ ∧ s2.next_free_index_ = s1.next_free_index_) :=
  ⟨_, rfl, rfl, rfl, rfl,
    Allocate_materializes demo demo_WF (FixedSizeMemoryPool demo 4096) (by decide) (by decide)⟩

/-! ## The push step -/

/-- C16: in every state (of a pool whose storage exists) and for every slot
index `i < capacity`, `Deallocate(&m_pool_[i].data_)` returns; it writes into
the link of slot `i` the index of the slot `free_head_` pointed to, or the
capacity when `free_head_` was null, makes `free_head_` point to slot `i` and
adds one to `free_count_` (as a `uint64_t`; exactly one unless the counter was
at its maximum); `fresh_index_` and every other link are unchanged. -/
theorem Deallocate_pushes (cfg : Config) (hw : cfg.WF) (s : Pool) (hb : s.m_pool_ ≠ 0)
    (i : Nat) (hi : i < cfg.g_MaxNumberOfObjectsInPool) :
    ∃ s1, Deallocate cfg s (slotAddr cfg s.m_pool_ i) = .ok s1 ∧
      (s.free_head_ = 0 →
        s1.next_free_index_ (slotAddr cfg s.m_pool_ i) = some cfg.g_MaxNumberOfObjectsInPool) ∧
      (∀ j, j < cfg.g_MaxNumberOfObjectsInPool → s.free_head_ = slotAddr cfg s.m_pool_ j →
        s1.next_free_index_ (slotAddr cfg s.m_pool_ i) = some j) ∧
      s1.free_head_ = slotAddr cfg s.m_pool_ i ∧
      s1.free_count_ = (s.free_count_ + 1) % 18446744073709551616 ∧
      (s.free_count_ + 1 < 18446744073709551616 → s1.free_count_ = s.free_count_ + 1) ∧
      s1.fresh_index_ = s.fresh_index_ ∧ s1.m_pool_ = s.m_pool_ ∧
      ∀ a, a ≠ slotAddr cfg s.m_pool_ i → s1.next_free_index_ a = s.next_free_index_ a := by
  have hc := hw.cap_int
  have hp : slotAddr cfg s.m_pool_ i ≠ 0 := slotAddr_ne_zero cfg _ i hb
  have hv := ValidateMemory_slotAddr cfg s i hi
  by_cases hz : s.free_head_ = 0
  · refine ⟨{ m_pool_ := s.m_pool_, free_head_ := slotAddr cfg s.m_pool_ i,
              free_count_ := (s.free_count_ + 1) % 18446744073709551616,
              fresh_index_ := s.fresh_index_,
              next_free_index_ := Function.update s.next_free_index_ (slotAddr cfg s.m_pool_ i)
                (some cfg.g_MaxNumberOfObjectsInPool) }, ?_, ?_, ?_, rfl, rfl, ?_, rfl, rfl, ?_⟩
    · simp only [Deallocate, if_neg hp, hv, hz, ne_eq, not_true_eq_false, if_false]
    · intro _
      exact Function.update_same _ _ _
    · intro j _ hj
      rw [hz] at hj
      exact absurd hj.symm (slotAddr_ne_zero cfg _ j hb)
    · intro hlt
      exact Nat.mod_eq_of_lt hlt
    · intro a ha
      exact Function.update_noteq ha _ _
  · refine ⟨{ m_pool_ := s.m_pool_, free_head_ := slotAddr cfg s.m_pool_ i,
              free_count_ := (s.free_count_ + 1) % 18446744073709551616,
              fresh_index_ := s.fresh_index_,
              next_free_index_ := Function.update s.next_free_index_ (slotAddr cfg s.m_pool_ i)
                (some (toUInt64 (wrapInt32 (Int.tdiv ((s.free_head_ : Int) - (s.m_pool_ : Int))
                  (cfg.sizeofMemoryCb : Int))))) }, ?_, ?_, ?_, rfl, rfl, ?_, rfl, rfl, ?_⟩
    · simp only [Deallocate, if_neg hp, hv, ne_eq, hz, not_false_eq_true, if_true, ToIndex,
        if_false]
    · intro h0
      exact absurd h0 hz
    · intro j hj hhead
      have hidx := ToIndex_slotAddr cfg hw s j hb hj
      rw [← hhead] at hidx
      simp only [ToIndex, if_neg hz] at hidx
      have hval := Except.ok.inj hidx
      show Function.update s.next_free_index_ _ _ _ = _
      rw [Function.update_same, hval, toUInt64_of_lt j (by omega)]
    · intro hlt
      exact Nat.mod_eq_of_lt hlt
    · intro a ha
      exact Function.update_noteq ha _ _

/-- Witness for C16: with slot 1 at the head of the free list of the pool of
three, deallocating slot 0 links slot 0 to slot 1. -/
theorem Deallocate_pushes_witness :
    ∃ r, exec demo (Run.start demo 4096) [.allocate false] = .ok r ∧
      r.pool.free_head_ = slotAddr demo r.pool.m_pool_ 1 ∧
      ∃ s1, Deallocate demo r.pool (slotAddr demo r.pool.m_pool_ 0) = .ok s1 ∧
        (r.pool.free_head_ = 0 →
          s1.next_free_index_ (slotAddr demo r.pool.m_pool_ 0)
            = some demo.g_MaxNumberOfObjectsInPool) ∧
        (∀ j, j < demo.g_MaxNumberOfObjectsInPool →
          r.pool.free_head_ = slotAddr demo r.pool.m_pool_ j →
          s1.next_free_index_ (slotAddr demo r.pool.m_pool_ 0) = some j) ∧
        s1.free_head_ = slotAddr demo r.pool.m_pool_ 0 ∧
        s1.free_count_ = (r.pool.free_count_ + 1) % 18446744073709551616 ∧
        (r.pool.free_count_ + 1 < 18446744073709551616 →
          s1.free_count_ = r.pool.free_count_ + 1) ∧
        s1.fresh_index_ = r.pool.fresh_index_ ∧ s1.m_pool_ = r.pool.m_pool_ ∧
        ∀ a, a ≠ slotAddr demo r.pool.m_pool_ 0 →
          s1.next_free_index_ a = r.pool.next_free_index_ a := by
  refine ⟨_, rfl, rfl, ?_⟩
  exact Deallocate_pushes demo demo_WF _ (by decide) 0 (by decide)

/-! ## The progress of `fresh_index_` -/

theorem Allocate_fresh (cfg : Config) (hw : cfg.WF) (s s2 : Pool) (t : Bool) (mem : Nat)
    (h : Allocate cfg s t = .ok (mem, s2)) :
    s2.fresh_index_ =
      if s.fresh_index_ < cfg.g_MaxNumberOfObjectsInPool then s.fresh_index_ + 1
      else s.fresh_index_ := by
  obtain ⟨s1, _, _, _, hb, hm, _, _, _, _, _, _, _, _, hf, _⟩ := Allocate_ok cfg s s2 t mem h
  rw [materialize_eq cfg hw s hb] at hm
  have := Except.ok.inj hm
  subst this
  rw [hf]
  by_cases hlt : s.fresh_index_ < cfg.g_MaxNumberOfObjectsInPool
  · simp only [if_pos hlt]
  · simp only [if_neg hlt]

theorem step_fresh (cfg : Config) (hw : cfg.WF) (r r1 : Run) (c : Call)
    (h : step cfg r c = .ok r1) :
    r1.pool.fresh_index_ =
      match c with
      | .allocate _ =>
        if r.pool.fresh_index_ < cfg.g_MaxNumberOfObjectsInPool then r.pool.fresh_index_ + 1
        else r.pool.fresh_index_
      | .deallocate _ => r.pool.fresh_index_ := by
  cases c with
  | allocate t =>
    simp only [step] at h
    split at h
    · cases h
    · rename_i mem s2 ha
      cases h
      exact Allocate_fresh cfg hw r.pool s2 t mem ha
  | deallocate ptr =>
    simp only [step] at h
    split at h
    · cases h
    · rename_i s1 hd
      by_cases hp : ptr = 0
      · rw [if_pos hp] at h
        cases h
        subst hp
        simp only [Deallocate, if_true] at hd
        cases hd
        rfl
      · rw [if_neg hp] at h
        cases h
        exact (Deallocate_ok cfg r.pool s1 ptr hp hd).2.2.1

theorem exec_fresh (cfg : Config) (hw : cfg.WF) (tr : List Call) :
    ∀ (r r1 : Run), exec cfg r tr = .ok r1 →
      r.pool.fresh_index_ ≤ cfg.g_MaxNumberOfObjectsInPool →
      r1.pool.fresh_index_ =
        min (r.pool.fresh_index_ + allocations tr) cfg.g_MaxNumberOfObjectsInPool := by
  induction tr with
  | nil =>
    intro r r1 h hle
    cases h
    simp only [allocations, List.countP_nil, Nat.add_zero]
    omega
  | cons c cs ih =>
    intro r r1 h hle
    simp only [exec] at h
    split at h
    · cases h
    · rename_i r2 hs
      have hstep := step_fresh cfg hw r r2 c hs
      rw [allocations_cons]
      cases c with
      | allocate t =>
        simp only at hstep
        by_cases hlt : r.pool.fresh_index_ < cfg.g_MaxNumberOfObjectsInPool
        · rw [if_pos hlt] at hstep
          have := ih r2 r1 h (by omega)
          simp only
          omega
        · rw [if_neg hlt] at hstep
          have := ih r2 r1 h (by omega)
          simp only
          omega
      | deallocate ptr =>
        simp only at hstep
        have := ih r2 r1 h (by omega)
        simp only
        omega

/-- C19: for every sequence of calls on a freshly constructed pool in which
every call returns, `fresh_index_` is `min(k, capacity)` for the number `k` of
`Allocate` calls made, whatever `Deallocate` calls are interleaved; it is at
most the capacity, and any further calls that return leave it at least as
large. -/
theorem fresh_index_counts_allocations (cfg : Config) (hw : cfg.WF) (block : Nat)
    (tr more : List Call) (r r1 : Run)
    (he : exec cfg (Run.start cfg block) tr = .ok r) (hmore : exec cfg r more = .ok r1) :
    r.pool.fresh_index_ = min (allocations tr) cfg.g_MaxNumberOfObjectsInPool ∧
      r.pool.fresh_index_ ≤ cfg.g_MaxNumberOfObjectsInPool ∧
      r.pool.fresh_index_ ≤ r1.pool.fresh_index_ ∧
      r1.pool.fresh_index_ ≤ cfg.g_MaxNumberOfObjectsInPool := by
  have h0 : (Run.start cfg block).pool.fresh_index_ = 0 := rfl
  have h1 := exec_fresh cfg hw tr _ r he (by rw [h0]; exact Nat.zero_le _)
  rw [h0, Nat.zero_add] at h1
  have hle : r.pool.fresh_index_ ≤ cfg.g_MaxNumberOfObjectsInPool := by omega
  have h2 := exec_fresh cfg hw more r r1 hmore hle
  refine ⟨h1, hle, ?_, ?_⟩ <;> omega

/-- Witness for C19: four allocations with two deallocations in between on the
pool of three leave `fresh_index_` at 3; after the first two calls it was 1. -/
theorem fresh_index_counts_allocations_witness :
    ∃ r r1, exec demo (Run.start demo 4096) [.allocate false, .deallocate 4096] = .ok r ∧
      exec demo r [.allocate false, .allocate false, .deallocate 4112, .allocate false]
        = .ok r1 ∧ r.pool.fresh_index_ = 1 ∧ r1.pool.fresh_index_ = 3 ∧
      (r.pool.fresh_index_ = min (allocations [.allocate false, .deallocate 4096])
          demo.g_MaxNumberOfObjectsInPool ∧
        r.pool.fresh_index_ ≤ demo.g_MaxNumberOfObjectsInPool ∧
        r.pool.fresh_index_ ≤ r1.pool.fresh_index_ ∧
        r1.pool.fresh_index_ ≤ demo.g_MaxNumberOfObjectsInPool) := by
  refine ⟨_, _, rfl, rfl, rfl, rfl, ?_⟩
  exact fresh_index_counts_allocations demo demo_WF 4096 [.allocate false, .deallocate 4096]
    [.allocate false, .allocate false, .deallocate 4112, .allocate false] _ _ rfl rfl

/-! ## The free chain -/

theorem slotAddr_lt (cfg : Config) (hw : cfg.WF) (b i j : Nat) (h : i < j) :
    slotAddr cfg b i < slotAddr cfg b j := by
  unfold slotAddr
  have := Nat.mul_lt_mul_of_pos_right h hw.size_pos
  omega

theorem freeChain_of_links (cfg : Config) (hw : cfg.WF) (block : Nat) (hb : block ≠ 0)
    (s : Pool) (hm : s.m_pool_ = block)
    (hf : s.fresh_index_ ≤ cfg.g_MaxNumberOfObjectsInPool) (fl : List Nat) :
    (∀ i ∈ fl, i < s.fresh_index_) →
      LinksTo cfg block s.next_free_index_ s.fresh_index_ fl →
      ∀ n, fl.length ≤ n →
        freeChain cfg s n (slotPtr cfg block (fl.headD s.fresh_index_))
          = fl.map (slotAddr cfg block) := by
  induction fl with
  | nil =>
    intro _ _ n _
    cases n with
    | zero => rfl
    | succ m =>
      have hstop : slotPtr cfg block s.fresh_index_ = 0 ∨
          slotAddr cfg s.m_pool_ s.fresh_index_ ≤ slotPtr cfg block s.fresh_index_ := by
        by_cases hlt : s.fresh_index_ < cfg.g_MaxNumberOfObjectsInPool
        · right
          rw [slotPtr_of_lt cfg block _ hlt, hm]
        · left
          simp [slotPtr, hlt]
      simp only [List.headD_nil, freeChain, if_pos hstop, List.map_nil]
  | cons i rest ih =>
    intro hlt hl n hn
    cases n with
    | zero => simp at hn
    | succ m =>
      have hif : i < s.fresh_index_ := hlt i (List.mem_cons_self _ _)
      have hic : i < cfg.g_MaxNumberOfObjectsInPool := by omega
      have hrest : ∀ j ∈ rest, j < s.fresh_index_ := fun j hj => hlt j (List.mem_cons_of_mem _ hj)
      have hv : rest.headD s.fresh_index_ ≤ cfg.g_MaxNumberOfObjectsInPool := by
        cases rest with
        | nil => exact hf
        | cons c r =>
          have := hrest c (List.mem_cons_self _ _)
          simp only [List.headD_cons]
          omega
      have hto := ToAddr_toInt cfg hw s (rest.headD s.fresh_index_) hv
      rw [hm] at hto
      have hne : slotAddr cfg block i ≠ 0 := slotAddr_ne_zero cfg block i hb
      have hsucc : successor cfg s (slotAddr cfg block i)
          = some (slotPtr cfg block (rest.headD s.fresh_index_)) := by
        unfold successor
        rw [if_neg hne, hl.1]
        simp only [hto]
      have hgo : ¬ (slotAddr cfg block i = 0 ∨
          slotAddr cfg s.m_pool_ s.fresh_index_ ≤ slotAddr cfg block i) := by
        have := slotAddr_lt cfg hw block i s.fresh_index_ hif
        rw [hm]
        omega
      have hrec := ih hrest hl.2 m (by simp only [List.length_cons] at hn; omega)
      simp only [List.headD_cons, slotPtr_of_lt cfg block i hic, freeChain, if_neg hgo, hsucc,
        hrec, List.map_cons]

theorem freeChain_eq (cfg : Config) (hw : cfg.WF) (block : Nat) (hb : block ≠ 0)
    (s : Pool) (live fl : List Nat) (h : Inv cfg block s live fl) (n : Nat)
    (hn : cfg.g_MaxNumberOfObjectsInPool ≤ n) :
    freeChain cfg s n s.free_head_ = fl.map (slotAddr cfg block) := by
  rw [h.head]
  have hlen : fl.length ≤ n := by
    have := h.total
    have := h.fresh_le
    omega
  exact freeChain_of_links cfg hw block hb s h.base h.fresh_le fl h.fl_lt h.links n hlen

theorem LinksTo_getLast (cfg : Config) (b : Nat) (links : Nat → Option Nat) (t : Nat)
    (fl : List Nat) (h : LinksTo cfg b links t fl) (i : Nat) (hi : fl.getLast? = some i) :
    links (slotAddr cfg b i) = some t := by
  induction fl with
  | nil => cases hi
  | cons a rest ih =>
    cases rest with
    | nil =>
      simp only [List.getLast?_singleton, Option.some.injEq] at hi
      subst hi
      exact h.1
    | cons c r =>
      rw [List.getLast?_cons_cons] at hi
      exact ih h.2 hi

/-- C11, as stated, fails: on the pool of three, after allocate, deallocate,
allocate (a contract-respecting sequence) the chain from `free_head_` through
the slots below `fresh_index_` visits slot 1 (address 4112), which was never
returned by `Allocate`: it is not a slot "allocated at some point and
deallocated since". -/
theorem free_chain_visits_never_allocated_slot :
    respects demo (Run.start demo 4096)
        [.allocate false, .deallocate 4096, .allocate false] = true ∧
      ∃ r, exec demo (Run.start demo 4096)
          [.allocate false, .deallocate 4096, .allocate false] = .ok r ∧
        r.pool.fresh_index_ = 2 ∧
        freeChain demo r.pool 3 r.pool.free_head_ = [slotAddr demo 4096 1] ∧
        slotAddr demo 4096 1 ∉ r.returned :=
  ⟨by decide, _, rfl, rfl, by decide, by decide⟩

/-- C11, amended: for every contract-respecting sequence of calls on a freshly
constructed pool, in the reached state the chain from `free_head_` through the
slots below `fresh_index_` visits no slot twice, visits no slot that holds a
live object, and visits exactly the slots below `fresh_index_` that hold no
live object (whether or not they were ever allocated); once `fresh_index_` is
the capacity, an empty chain means a null `free_head_` and the link of the last
slot of the chain holds the capacity. -/
theorem free_chain_shape (cfg : Config) (hw : cfg.WF) (block : Nat) (hb : block ≠ 0)
    (tr : List Call) (hr : respects cfg (Run.start cfg block) tr = true)
    (n : Nat) (hn : cfg.g_MaxNumberOfObjectsInPool ≤ n) :
    ∃ r ch, exec cfg (Run.start cfg block) tr = .ok r ∧
      ch = freeChain cfg r.pool n r.pool.free_head_ ∧
      ch.Nodup ∧
      (∀ a ∈ ch, a ∉ r.live) ∧
      (∀ a ∈ ch, ∃ i, i < r.pool.fresh_index_ ∧ a = slotAddr cfg block i) ∧
      (∀ i, i < r.pool.fresh_index_ →
        (slotAddr cfg block i ∈ ch ↔ slotAddr cfg block i ∉ r.live)) ∧
      (r.pool.fresh_index_ = cfg.g_MaxNumberOfObjectsInPool →
        (ch = [] → r.pool.free_head_ = 0) ∧
        ∀ a, ch.getLast? = some a →
          r.pool.next_free_index_ a = some cfg.g_MaxNumberOfObjectsInPool) := by
  obtain ⟨r, fl, he, hi⟩ := exec_start_inv cfg hw block hb tr hr
  have hch := freeChain_eq cfg hw block hb r.pool r.live fl hi.inv n hn
  have hinj : Function.Injective (slotAddr cfg block) :=
    fun i j e => slotAddr_inj cfg hw block i j e
  have hnot : ∀ i ∈ fl, slotAddr cfg block i ∉ r.live := by
    intro i hifl hl
    obtain ⟨j, _, hpj, hjfl⟩ := hi.inv.live_slot _ hl
    have := hinj hpj
    exact hjfl (this ▸ hifl)
  refine ⟨r, fl.map (slotAddr cfg block), he, hch.symm, hi.inv.fl_nodup.map hinj, ?_, ?_, ?_, ?_⟩
  · intro a ha
    obtain ⟨i, hifl, hia⟩ := List.mem_map.1 ha
    rw [← hia]
    exact hnot i hifl
  · intro a ha
    obtain ⟨i, hifl, hia⟩ := List.mem_map.1 ha
    exact ⟨i, hi.inv.fl_lt i hifl, hia.symm⟩
  · intro i hif
    constructor
    · intro ha
      obtain ⟨j, hjfl, hja⟩ := List.mem_map.1 ha
      have := hinj hja
      exact hnot i (this ▸ hjfl)
    · intro hl
      rcases hi.inv.covered i hif with h1 | h1
      · exact absurd h1 hl
      · exact List.mem_map_of_mem _ h1
  · intro hfull
    constructor
    · intro hnil
      have hfl : fl = [] := List.map_eq_nil_iff.1 hnil
      rw [hi.inv.head, hfl, List.headD_nil, hfull]
      simp [slotPtr]
    · intro a ha
      rw [List.getLast?_map] at ha
      cases hlast : fl.getLast? with
      | none =>
        rw [hlast] at ha
        cases ha
      | some i =>
        rw [hlast] at ha
        simp only [Option.map_some', Option.some.injEq] at ha
        rw [← ha, ← hfull]
        exact LinksTo_getLast cfg block _ _ fl hi.inv.links i hlast

/-- Witness for C11 (amended): the full pool of three with its middle block
given back. -/
theorem free_chain_shape_witness :
    respects demo (Run.start demo 4096)
        [.allocate false, .allocate false, .allocate false, .deallocate 4112] = true ∧
      ∃ r ch, exec demo (Run.start demo 4096)
          [.allocate false, .allocate false, .allocate false, .deallocate 4112] = .ok r ∧
        ch = freeChain demo r.pool 3 r.pool.free_head_ ∧
        ch.Nodup ∧
        (∀ a ∈ ch, a ∉ r.live) ∧
        (∀ a ∈ ch, ∃ i, i < r.pool.fresh_index_ ∧ a = slotAddr demo 4096 i) ∧
        (∀ i, i < r.pool.fresh_index_ →
          (slotAddr demo 4096 i ∈ ch ↔ slotAddr demo 4096 i ∉ r.live)) ∧
        (r.pool.fresh_index_ = demo.g_MaxNumberOfObjectsInPool →
          (ch = [] → r.pool.free_head_ = 0) ∧
          ∀ a, ch.getLast? = some a →
            r.pool.next_free_index_ a = some demo.g_MaxNumberOfObjectsInPool) :=
  ⟨by decide, free_chain_shape demo demo_WF 4096 (by decide) _ (by decide) 3 (by decide)⟩

/-- C12: for every contract-respecting sequence of calls on a freshly
constructed pool, in the reached state `free_count_` is the number of slots on
the free chain below `fresh_index_` plus the number `capacity - fresh_index_`
of slots never touched. -/
theorem free_count_is_chain_plus_untouched (cfg : Config) (hw : cfg.WF) (block : Nat)
    (hb : block ≠ 0) (tr : List Call) (hr : respects cfg (Run.start cfg block) tr = true)
    (n : Nat) (hn : cfg.g_MaxNumberOfObjectsInPool ≤ n) :
    ∃ r, exec cfg (Run.start cfg block) tr = .ok r ∧
      r.pool.free_count_ = (freeChain cfg r.pool n r.pool.free_head_).length
        + (cfg.g_MaxNumberOfObjectsInPool - r.pool.fresh_index_) := by
  obtain ⟨r, fl, he, hi⟩ := exec_start_inv cfg hw block hb tr hr
  refine ⟨r, he, ?_⟩
  rw [freeChain_eq cfg hw block hb r.pool r.live fl hi.inv n hn, List.length_map]
  exact hi.inv.count

/-- Witness for C12: two allocations and one deallocation on the pool of
three: one slot on the chain, one never touched, `free_count_` 2. -/
theorem free_count_is_chain_plus_untouched_witness :
    ∃ r, exec demo (Run.start demo 4096)
        [.allocate false, .allocate false, .deallocate 4096] = .ok r ∧
      r.pool.free_count_ = 2 ∧
      (freeChain demo r.pool 3 r.pool.free_head_).length = 1 ∧
      demo.g_MaxNumberOfObjectsInPool - r.pool.fresh_index_ = 1 ∧
      ∃ r1, exec demo (Run.start demo 4096)
          [.allocate false, .allocate false, .deallocate 4096] = .ok r1 ∧
        r1.pool.free_count_ = (freeChain demo r1.pool 3 r1.pool.free_head_).length
          + (demo.g_MaxNumberOfObjectsInPool - r1.pool.fresh_index_) :=
  ⟨_, rfl, rfl, by decide, by decide,
    free_count_is_chain_plus_untouched demo demo_WF 4096 (by decide) _ (by decide) 3
      (by decide)⟩

/-- C13: for every contract-respecting sequence of calls on a freshly
constructed pool, in the reached state `free_head_` is null exactly when
`free_count_` is 0, and otherwise it is the address of a slot with an index
below the capacity. -/
theorem free_head_null_iff (cfg : Config) (hw : cfg.WF) (block : Nat) (hb : block ≠ 0)
    (tr : List Call) (hr : respects cfg (Run.start cfg block) tr = true) :
    ∃ r, exec cfg (Run.start cfg block) tr = .ok r ∧
      (r.pool.free_head_ = 0 ↔ r.pool.free_count_ = 0) ∧
      (r.pool.free_count_ ≠ 0 →
        ∃ i, i < cfg.g_MaxNumberOfObjectsInPool ∧ r.pool.free_head_ = slotAddr cfg block i) := by
  obtain ⟨r, fl, he, hi⟩ := exec_start_inv cfg hw block hb tr hr
  have hcount := hi.inv.count
  have hf := hi.inv.fresh_le
  have hle := hi.inv.headD_le
  have hhead := hi.inv.head
  have hkey : r.pool.free_count_ = 0 ↔
      ¬ fl.headD r.pool.fresh_index_ < cfg.g_MaxNumberOfObjectsInPool := by
    cases fl with
    | nil =>
      simp only [List.length_nil, List.headD_nil] at hcount ⊢
      omega
    | cons i rest =>
      have := hi.inv.fl_lt i (List.mem_cons_self _ _)
      simp only [List.length_cons, List.headD_cons] at hcount ⊢
      omega
  refine ⟨r, he, ⟨?_, ?_⟩, ?_⟩
  · intro h0
    rw [hkey]
    intro hlt
    rw [hhead, slotPtr_of_lt cfg block _ hlt] at h0
    exact slotAddr_ne_zero cfg block _ hb h0
  · intro h0
    have := hkey.1 h0
    rw [hhead]
    unfold slotPtr
    rw [if_neg this]
  · intro hne
    have hlt : fl.headD r.pool.fresh_index_ < cfg.g_MaxNumberOfObjectsInPool := by
      by_contra hc
      exact hne (hkey.2 hc)
    exact ⟨_, hlt, by rw [hhead, slotPtr_of_lt cfg block _ hlt]⟩

/-- Witness for C13: the fresh pool of three (head at slot 0) and the full one
(head null). -/
theorem free_head_null_iff_witness :
    (∃ r, exec demo (Run.start demo 4096) [] = .ok r ∧
      (r.pool.free_head_ = 0 ↔ r.pool.free_count_ = 0) ∧
      (r.pool.free_count_ ≠ 0 →
        ∃ i, i < demo.g_MaxNumberOfObjectsInPool ∧ r.pool.free_head_ = slotAddr demo 4096 i)) ∧
      ∃ r, exec demo (Run.start demo 4096)
          [.allocate false, .allocate false, .allocate false] = .ok r ∧
        r.pool.free_head_ = 0 ∧ r.pool.free_count_ = 0 :=
  ⟨free_head_null_iff demo demo_WF 4096 (by decide) [] (by decide), _, rfl, rfl, rfl⟩

/-! ## The pop step under the contract -/

theorem Allocate_reach (cfg : Config) (hw : cfg.WF) (block : Nat) (hb : block ≠ 0)
    (s : Pool) (live fl : List Nat) (h : Inv cfg block s live fl) (hfc : s.free_count_ ≠ 0) :
    ∃ s1 next s2, materialize cfg s = .ok s1 ∧ s1.free_head_ = s.free_head_ ∧
      (∃ i, i < cfg.g_MaxNumberOfObjectsInPool ∧ s.free_head_ = slotAddr cfg block i) ∧
      s1.next_free_index_ s.free_head_ = some next ∧
      next ≤ cfg.g_MaxNumberOfObjectsInPool ∧
      ToAddr cfg s1 (toInt next) = .ok (slotPtr cfg block next) ∧
      Allocate cfg s false = .ok (s.free_head_, s2) ∧
      s2.free_head_ = slotPtr cfg block next ∧ s2.free_count_ + 1 = s.free_count_ := by
  obtain ⟨s1, fl1, hm, h1, hne, hhead, _, _, _⟩ :=
    materialize_inv cfg hw block hb s live fl h hfc
  obtain ⟨s2, _, ha, _, hc2, _, _⟩ := Allocate_inv cfg hw block hb s live fl h hfc
  obtain ⟨s1', next', head', _, _, hm', hmem, _, hn', hto', _, _, hh2, _, _, _⟩ :=
    Allocate_ok cfg s s2 false s.free_head_ ha
  rw [hm] at hm'
  have hs := Except.ok.inj hm'
  subst hs
  have hf1 := h1.fresh_le
  cases fl1 with
  | nil => exact absurd rfl hne
  | cons i rest =>
    have hif : i < s1.fresh_index_ := h1.fl_lt i (List.mem_cons_self _ _)
    have hic : i < cfg.g_MaxNumberOfObjectsInPool := by omega
    have hh1 : s1.free_head_ = slotAddr cfg block i := by
      rw [h1.head, List.headD_cons, slotPtr_of_lt cfg block i hic]
    have hrest : rest.headD s1.fresh_index_ ≤ cfg.g_MaxNumberOfObjectsInPool := by
      cases rest with
      | nil => exact hf1
      | cons j r =>
        have := h1.fl_lt j (by simp)
        simp only [List.headD_cons]
        omega
    have hlink : s1.next_free_index_ s.free_head_ = some (rest.headD s1.fresh_index_) := by
      rw [← hhead, hh1]
      exact h1.links.1
    have hnext : next' = rest.headD s1.fresh_index_ := by
      rw [hlink] at hn'
      exact (Option.some.inj hn').symm
    subst hnext
    have hto := ToAddr_toInt cfg hw s1 _ hrest
    rw [h1.base] at hto
    rw [hto] at hto'
    have hhead' := Except.ok.inj hto'
    exact ⟨s1, _, s2, hm, hhead, ⟨i, hic, by rw [← hhead, hh1]⟩, hlink, hrest, hto, ha,
      by rw [hh2, ← hhead'], hc2⟩

/-- C15: in every state reached by a contract-respecting sequence of calls
with `free_count_ > 0`, `Allocate` returns the address of the slot that
`free_head_` pointed to before the call; with `next` the link of that slot
after the materialization step, `free_head_` becomes null when `next` is the
capacity and the address of slot `next` otherwise; `free_count_` decreases by
exactly one. -/
theorem Allocate_pops (cfg : Config) (hw : cfg.WF) (block : Nat) (hb : block ≠ 0)
    (tr : List Call) (hr : respects cfg (Run.start cfg block) tr = true)
    (r : Run) (he : exec cfg (Run.start cfg block) tr = .ok r)
    (hfc : r.pool.free_count_ ≠ 0) :
    ∃ s1 next s2, materialize cfg r.pool = .ok s1 ∧
      s1.next_free_index_ r.pool.free_head_ = some next ∧
      Allocate cfg r.pool false = .ok (r.pool.free_head_, s2) ∧
      (∃ i, i < cfg.g_MaxNumberOfObjectsInPool ∧ r.pool.free_head_ = slotAddr cfg block i) ∧
      (next = cfg.g_MaxNumberOfObjectsInPool → s2.free_head_ = 0) ∧
      (next ≠ cfg.g_MaxNumberOfObjectsInPool →
        next < cfg.g_MaxNumberOfObjectsInPool ∧ s2.free_head_ = slotAddr cfg block next) ∧
      s2.free_count_ + 1 = r.pool.free_count_ := by
  obtain ⟨r0, fl, he0, hi⟩ := exec_start_inv cfg hw block hb tr hr
  have hr0 := exec_ok_inj he he0
  subst hr0
  obtain ⟨s1, next, s2, hm, _, hslot, hn, hle, _, ha, hh2, hc2⟩ :=
    Allocate_reach cfg hw block hb r0.pool r0.live fl hi.inv hfc
  refine ⟨s1, next, s2, hm, hn, ha, hslot, ?_, ?_, hc2⟩
  · intro heq
    rw [hh2, heq]
    unfold slotPtr
    rw [if_neg (Nat.lt_irrefl _)]
  · intro hneq
    have hlt : next < cfg.g_MaxNumberOfObjectsInPool := by omega
    exact ⟨hlt, by rw [hh2, slotPtr_of_lt cfg block next hlt]⟩

/-- Witness for C15: after one allocation and its deallocation on the pool of
three, `Allocate` returns slot 0 again and moves `free_head_` to slot 1. -/
theorem Allocate_pops_witness :
    ∃ r, exec demo (Run.start demo 4096) [.allocate false, .deallocate 4096] = .ok r ∧
      r.pool.free_head_ = 4096 ∧
      (∃ s2, Allocate demo r.pool false = .ok (4096, s2) ∧ s2.free_head_ = 4112) ∧
      ∃ s1 next s2, materialize demo r.pool = .ok s1 ∧
        s1.next_free_index_ r.pool.free_head_ = some next ∧
        Allocate demo r.pool false = .ok (r.pool.free_head_, s2) ∧
        (∃ i, i < demo.g_MaxNumberOfObjectsInPool ∧ r.pool.free_head_ = slotAddr demo 4096 i) ∧
        (next = demo.g_MaxNumberOfObjectsInPool → s2.free_head_ = 0) ∧
        (next ≠ demo.g_MaxNumberOfObjectsInPool →
          next < demo.g_MaxNumberOfObjectsInPool ∧ s2.free_head_ = slotAddr demo 4096 next) ∧
        s2.free_count_ + 1 = r.pool.free_count_ := by
  refine ⟨_, rfl, rfl, ⟨_, rfl, rfl⟩, ?_⟩
  exact Allocate_pops demo demo_WF 4096 (by decide) [.allocate false, .deallocate 4096]
    (by decide) _ rfl (by decide)

/-- C18: in every state reached by a contract-respecting sequence of calls
with `free_count_ > 0`, the accesses of `Allocate` are defined: after the
materialization step `free_head_` is not null, the link of the slot it points
to has been written, its value is at most the capacity, so its conversion to
`int` keeps the value and `ToAddr` passes `assert (index >= 0)`, and
`Allocate` returns. -/
theorem Allocate_accesses_defined (cfg : Config) (hw : cfg.WF) (block : Nat) (hb : block ≠ 0)
    (tr : List Call) (hr : respects cfg (Run.start cfg block) tr = true)
    (r : Run) (he : exec cfg (Run.start cfg block) tr = .ok r)
    (hfc : r.pool.free_count_ ≠ 0) :
    ∃ s1 next, materialize cfg r.pool = .ok s1 ∧ s1.free_head_ ≠ 0 ∧
      s1.next_free_index_ s1.free_head_ = some next ∧
      next ≤ cfg.g_MaxNumberOfObjectsInPool ∧ toInt next = (next : Int) ∧
      (∃ a, ToAddr cfg s1 (toInt next) = .ok a) ∧
      ∃ mem s2, Allocate cfg r.pool false = .ok (mem, s2) := by
  obtain ⟨r0, fl, he0, hi⟩ := exec_start_inv cfg hw block hb tr hr
  have hr0 := exec_ok_inj he he0
  subst hr0
  obtain ⟨s1, next, s2, hm, hhead, ⟨i, _, hslot⟩, hn, hle, hto, ha, _, _⟩ :=
    Allocate_reach cfg hw block hb r0.pool r0.live fl hi.inv hfc
  have hc := hw.cap_int
  refine ⟨s1, next, hm, ?_, ?_, hle, toInt_of_lt next (by omega), ⟨_, hto⟩, _, s2, ha⟩
  · rw [hhead, hslot]
    exact slotAddr_ne_zero cfg block i hb
  · rw [hhead]
    exact hn

/-- Witness for C18: the third allocation on the pool of three reads the link
of the last slot, which holds the capacity. -/
theorem Allocate_accesses_defined_witness :
    ∃ r, exec demo (Run.start demo 4096) [.allocate false, .allocate false] = .ok r ∧
      ∃ s1 next, materialize demo r.pool = .ok s1 ∧ s1.free_head_ ≠ 0 ∧
        s1.next_free_index_ s1.free_head_ = some next ∧
        next ≤ demo.g_MaxNumberOfObjectsInPool ∧ toInt next = (next : Int) ∧
        (∃ a, ToAddr demo s1 (toInt next) = .ok a) ∧
        ∃ mem s2, Allocate demo r.pool false = .ok (mem, s2) := by
  refine ⟨_, rfl, ?_⟩
  exact Allocate_accesses_defined demo demo_WF 4096 (by decide)
    [.allocate false, .allocate false] (by decide) _ rfl (by decide)

/-! ## When the links are written -/

theorem Touched_start (cfg : Config) (block : Nat) :
    Touched cfg (FixedSizeMemoryPool cfg block) := by
  intro i
  exact ⟨fun h => absurd h (Nat.not_lt_zero _), fun _ => rfl⟩

theorem Allocate_touched (cfg : Config) (hw : cfg.WF) (s s2 : Pool) (t : Bool) (mem : Nat)
    (ht : Touched cfg s) (h : Allocate cfg s t = .ok (mem, s2)) : Touched cfg s2 := by
  obtain ⟨s1, _, _, _, hb, hm, _, _, _, _, _, hp, _, _, hf, hn⟩ := Allocate_ok cfg s s2 t mem h
  rw [materialize_eq cfg hw s hb] at hm
  have hs := Except.ok.inj hm
  subst hs
  intro i
  rw [hf, hn, hp]
  by_cases hlt : s.fresh_index_ < cfg.g_MaxNumberOfObjectsInPool
  · simp only [if_pos hlt]
    constructor
    · intro hi
      by_cases e : i = s.fresh_index_
      · rw [e, Function.update_same]
        exact Option.some_ne_none _
      · have hne : slotAddr cfg s.m_pool_ i ≠ slotAddr cfg s.m_pool_ s.fresh_index_ :=
          fun e2 => e (slotAddr_inj cfg hw _ _ _ e2)
        rw [Function.update_noteq hne]
        exact (ht i).1 (by omega)
    · intro hi
      have hne : slotAddr cfg s.m_pool_ i ≠ slotAddr cfg s.m_pool_ s.fresh_index_ := by
        intro e2
        have := slotAddr_inj cfg hw _ _ _ e2
        omega
      rw [Function.update_noteq hne]
      exact (ht i).2 (by omega)
  · simp only [if_neg hlt]
    exact ht i

theorem Deallocate_touched (cfg : Config) (hw : cfg.WF) (s s1 : Pool) (hb : s.m_pool_ ≠ 0)
    (j : Nat) (hj : j < s.fresh_index_) (ht : Touched cfg s)
    (h : Deallocate cfg s (slotAddr cfg s.m_pool_ j) = .ok s1) : Touched cfg s1 := by
  obtain ⟨hp, _, hf, hframe, hsome⟩ :=
    Deallocate_ok cfg s s1 _ (slotAddr_ne_zero cfg _ j hb) h
  intro i
  rw [hf, hp]
  constructor
  · intro hi
    by_cases e : i = j
    · rw [e]
      exact hsome
    · have hne : slotAddr cfg s.m_pool_ i ≠ slotAddr cfg s.m_pool_ j :=
        fun e2 => e (slotAddr_inj cfg hw _ _ _ e2)
      rw [hframe _ hne]
      exact (ht i).1 hi
  · intro hi
    have hne : slotAddr cfg s.m_pool_ i ≠ slotAddr cfg s.m_pool_ j := by
      intro e2
      have := slotAddr_inj cfg hw _ _ _ e2
      omega
    rw [hframe _ hne]
    exact (ht i).2 hi

theorem exec_touched (cfg : Config) (hw : cfg.WF) (block : Nat) (hb : block ≠ 0)
    (tr : List Call) :
    ∀ (r : Run) (fl : List Nat), RunInv cfg block r fl → Touched cfg r.pool →
      respects cfg r tr = true →
      ∃ r1 fl1, exec cfg r tr = .ok r1 ∧ RunInv cfg block r1 fl1 ∧ Touched cfg r1.pool := by
  induction tr with
  | nil =>
    intro r fl h ht _
    exact ⟨r, fl, rfl, h, ht⟩
  | cons c cs ih =>
    intro r fl h ht hr
    simp only [respects, Bool.and_eq_true] at hr
    have hadm := hr.1
    have hrest := hr.2
    cases c with
    | allocate t =>
      simp only [Call.admissible, Bool.and_eq_true, decide_eq_true_eq, Bool.not_eq_true'] at hadm
      obtain ⟨hfc, htf⟩ := hadm
      subst htf
      obtain ⟨s2, fl2, ha, hs, hi2, _⟩ := step_allocate_inv cfg hw block hb r fl h hfc
      have ht2 : Touched cfg (r.allocated r.pool.free_head_ s2).pool :=
        Allocate_touched cfg hw r.pool s2 false _ ht ha
      rw [hs] at hrest
      obtain ⟨r1, fl1, he, h1, ht1⟩ := ih _ fl2 hi2 ht2 hrest
      exact ⟨r1, fl1, by simp only [exec, hs, he], h1, ht1⟩
    | deallocate p =>
      simp only [Call.admissible, Bool.or_eq_true, decide_eq_true_eq] at hadm
      rcases hadm with h0 | hl
      · subst h0
        have hs : step cfg r (.deallocate 0) = .ok r := by
          simp [step, Deallocate]
        rw [hs] at hrest
        obtain ⟨r1, fl1, he, h1, ht1⟩ := ih r fl h ht hrest
        exact ⟨r1, fl1, by simp only [exec, hs, he], h1, ht1⟩
      · obtain ⟨i, s1, hpi, _, hd, hs, hi1, _, _⟩ :=
          step_deallocate_inv cfg hw block hb r fl h p hl
        obtain ⟨j, hjf, hpj, _⟩ := h.inv.live_slot p hl
        have hbase := h.inv.base
        have hb2 : r.pool.m_pool_ ≠ 0 := by rw [hbase]; exact hb
        have hd2 : Deallocate cfg r.pool (slotAddr cfg r.pool.m_pool_ j) = .ok s1 := by
          rw [hbase, ← hpj]
          exact hd
        have ht2 : Touched cfg (r.deallocated p s1).pool :=
          Deallocate_touched cfg hw r.pool s1 hb2 j hjf ht hd2
        rw [hs] at hrest
        obtain ⟨r1, fl1, he, h1, ht1⟩ := ih _ (i :: fl) hi1 ht2 hrest
        exact ⟨r1, fl1, by simp only [exec, hs, he], h1, ht1⟩

/-- C17, as stated, fails: on the pool of three, after allocate, deallocate,
allocate (a contract-respecting sequence) `fresh_index_` is 2 and the link of
slot 1 (address 4112) has been written, but slot 1 was never returned by
`Allocate`: its link was written by the second `Allocate`, which returned
slot 0. -/
theorem link_written_before_first_allocation :
    respects demo (Run.start demo 4096)
        [.allocate false, .deallocate 4096, .allocate false] = true ∧
      ∃ r, exec demo (Run.start demo 4096)
          [.allocate false, .deallocate 4096, .allocate false] = .ok r ∧
        r.pool.fresh_index_ = 2 ∧ 1 < r.pool.fresh_index_ ∧
        r.pool.next_free_index_ (slotAddr demo 4096 1) = some 2 ∧
        r.returned = [slotAddr demo 4096 0, slotAddr demo 4096 0] ∧
        slotAddr demo 4096 1 ∉ r.returned :=
  ⟨by decide, _, rfl, rfl, by decide, rfl, by decide, by decide⟩

/-- C17, amended: the link of a slot is written by the `Allocate` call that
moves `fresh_index_` past it, whichever slot that call returns.  For every
contract-respecting sequence of calls on a freshly constructed pool, in the
reached state `fresh_index_` is the number of `Allocate` calls, capped at the
capacity; the slots whose link has been written are exactly those with index
below `fresh_index_`; and every address returned by `Allocate` is a slot with
index below `fresh_index_` (so its link was written no later than the call
that first returned it). -/
theorem links_written_below_fresh_index (cfg : Config) (hw : cfg.WF) (block : Nat)
    (hb : block ≠ 0) (tr : List Call) (hr : respects cfg (Run.start cfg block) tr = true) :
    ∃ r, exec cfg (Run.start cfg block) tr = .ok r ∧
      r.pool.fresh_index_ = min (allocations tr) cfg.g_MaxNumberOfObjectsInPool ∧
      (∀ i, i < r.pool.fresh_index_ →
        r.pool.next_free_index_ (slotAddr cfg block i) ≠ none) ∧
      (∀ i, r.pool.fresh_index_ ≤ i → r.pool.next_free_index_ (slotAddr cfg block i) = none) ∧
      ∀ p ∈ r.returned, ∃ i, i < r.pool.fresh_index_ ∧ p = slotAddr cfg block i ∧
        r.pool.next_free_index_ p ≠ none := by
  obtain ⟨r, fl, he, hi, ht⟩ :=
    exec_touched cfg hw block hb tr _ [] (RunInv_start cfg hw block) (Touched_start cfg block) hr
  have hbase := hi.inv.base
  have hfresh := exec_fresh cfg hw tr _ r he (Nat.zero_le _)
  have h0 : (Run.start cfg block).pool.fresh_index_ = 0 := rfl
  rw [h0, Nat.zero_add] at hfresh
  refine ⟨r, he, hfresh, ?_, ?_, ?_⟩
  · intro i hif
    have := (ht i).1 hif
    rw [hbase] at this
    exact this
  · intro i hif
    have := (ht i).2 hif
    rw [hbase] at this
    exact this
  · intro p hp
    obtain ⟨i, hif, hpi⟩ := hi.returned_slot p hp
    refine ⟨i, hif, hpi, ?_⟩
    have := (ht i).1 hif
    rw [hbase] at this
    rw [hpi]
    exact this

/-- Witness for C17 (amended): allocate, deallocate, allocate on the pool of
three. -/
theorem links_written_below_fresh_index_witness :
    respects demo (Run.start demo 4096)
        [.allocate false, .deallocate 4096, .allocate false] = true ∧
      ∃ r, exec demo (Run.start demo 4096)
          [.allocate false, .deallocate 4096, .allocate false] = .ok r ∧
        r.pool.fresh_index_ = min (allocations [.allocate false, .deallocate 4096,
          .allocate false]) demo.g_MaxNumberOfObjectsInPool ∧
        (∀ i, i < r.pool.fresh_index_ →
          r.pool.next_free_index_ (slotAddr demo 4096 i) ≠ none) ∧
        (∀ i, r.pool.fresh_index_ ≤ i →
          r.pool.next_free_index_ (slotAddr demo 4096 i) = none) ∧
        ∀ p ∈ r.returned, ∃ i, i < r.pool.fresh_index_ ∧ p = slotAddr demo 4096 i ∧
          r.pool.next_free_index_ p ≠ none :=
  ⟨by decide, links_written_below_fresh_index demo demo_WF 4096 (by decide) _ (by decide)⟩

end FixedMemPool
